import Mathlib

/-!
Shallow embedding of the `kslot_map` crate: a generational-index arena
(`SlotMap`, from `src/lib.rs`) and a doubly-linked-list layer built on it
(`LinkedListSlotMap`, from `src/linked_list_slot_map.rs`).

Modelling conventions:
* Rust `Vec<T>` is a Lean `List`; `Vec::push` appends at the end,
  `Vec::pop`/`last` act on the last element, `Vec::swap_remove` is the
  `swapRemove` helper below.
* `usize` values are `Nat` (generations and indices only grow here, so no
  wrap-around arithmetic is reachable and `Nat` is faithful).
* Operations that can panic in Rust (unchecked indexing, `unwrap`) return
  `Option`, with `none` meaning "the call panics"; a Rust function that
  itself returns `Option<T>` and may also panic becomes
  `Option (Option T)` (outer layer: panic; inner layer: the Rust option).
* Mutable references cannot be modelled directly; accessors return the
  value read, and in-place writes through `get_mut(..).unwrap()` become a
  state-transforming function (`modifyNode`).
-/

/-- An entry of the indirection table: `struct Entry` in `src/lib.rs`. -/
structure Entry where
  item_index : Nat
  generation : Nat
deriving DecidableEq, Repr

/-- `SlotMapHandle<T>`: the phantom type parameter carries no data, so the
handle is just the pair of its two `usize` fields. -/
structure SlotMapHandle where
  indirection_index : Nat
  generation : Nat
deriving DecidableEq, Repr

/-- `SlotMap<T>` with its four vectors, as in `src/lib.rs`. -/
structure SlotMap (T : Type) where
  items : List T
  item_to_indirection_index : List Nat
  indirection_indices : List Entry
  free_indirection_indices : List Nat
deriving DecidableEq, Repr

/-- `Vec::swap_remove(i)`: replace position `i` by the last element and
shrink by one, returning the removed element; `none` models the panic on an
out-of-range index. -/
def swapRemove (l : List T) (i : Nat) : Option (T × List T) :=
  match l[i]?, l.getLast? with
  | some x, some lastElem => some (x, (l.set i lastElem).dropLast)
  | _, _ => none

/-- `SlotMapHandle::from_index_and_generation`. -/
def SlotMapHandle.from_index_and_generation (index generation : Nat) : SlotMapHandle :=
  ⟨index, generation⟩

/-- `SlotMapHandle::index_and_generation`. -/
def SlotMapHandle.index_and_generation (h : SlotMapHandle) : Nat × Nat :=
  (h.indirection_index, h.generation)

/-- The `PartialEq for SlotMapHandle` impl: equality compares only
`indirection_index`. -/
def SlotMapHandle.eqImpl (a b : SlotMapHandle) : Bool :=
  a.indirection_index == b.indirection_index

/-- The `Ord for SlotMapHandle` impl: comparison uses only
`indirection_index`. -/
def SlotMapHandle.cmpImpl (a b : SlotMapHandle) : Ordering :=
  compare a.indirection_index b.indirection_index

/-- The `Hash for SlotMapHandle` impl feeds first `indirection_index` and
then `generation` to the hasher; this is the exact stream of words written
to the hasher state. -/
def SlotMapHandle.hashStream (a : SlotMapHandle) : List Nat :=
  [a.indirection_index, a.generation]

/-- `SlotMap::new`. -/
def SlotMap.new (T : Type) : SlotMap T :=
  ⟨[], [], [], []⟩

/-- `SlotMap::len`. -/
def SlotMap.len (s : SlotMap T) : Nat :=
  s.items.length

/-- `SlotMap::next_handle`: peek the top of the free stack (reuse with
generation + 1) or a fresh slot at generation 0. `none` models the panic
when a free index is out of range of the indirection table. -/
def SlotMap.next_handle (s : SlotMap T) : Option SlotMapHandle :=
  match s.free_indirection_indices.getLast? with
  | some j =>
    match s.indirection_indices[j]? with
    | some slot => some ⟨j, slot.generation + 1⟩
    | none => none
  | none => some ⟨s.indirection_indices.length, 0⟩

/-- `SlotMap::new_handle_with_index`: pop the free stack and overwrite that
entry with generation + 1, or append a fresh entry at generation 0; record
the back-reference. Returns the new handle and the updated map. -/
def SlotMap.new_handle_with_index (s : SlotMap T) (item_index : Nat) :
    Option (SlotMapHandle × SlotMap T) :=
  match s.free_indirection_indices.getLast? with
  | some j =>
    match s.indirection_indices[j]? with
    | some slot =>
      some (⟨j, slot.generation + 1⟩,
        { s with
          indirection_indices :=
            s.indirection_indices.set j ⟨item_index, slot.generation + 1⟩
          free_indirection_indices := s.free_indirection_indices.dropLast
          item_to_indirection_index := s.item_to_indirection_index ++ [j] })
    | none => none
  | none =>
    some (⟨s.indirection_indices.length, 0⟩,
      { s with
        indirection_indices := s.indirection_indices ++ [⟨item_index, 0⟩]
        item_to_indirection_index :=
          s.item_to_indirection_index ++ [s.indirection_indices.length] })

/-- `SlotMap::push`: append the item to dense storage, then allocate its
handle with `new_handle_with_index`. -/
def SlotMap.push (s : SlotMap T) (item : T) : Option (SlotMapHandle × SlotMap T) :=
  SlotMap.new_handle_with_index
    { s with items := s.items ++ [item] } s.items.length

/-- `SlotMap::remove`: checked lookup of the indirection entry (a Rust
`None` leaves the map untouched), generation test, generation bump,
back-reference patch of the entry owning the last dense slot, swap-remove
from dense storage and from the back-reference table, and push of the freed
index onto the free stack. The outer `none` models the panics of
`last().unwrap()` and of the unchecked indexing / `swap_remove` calls. -/
def SlotMap.remove (s : SlotMap T) (handle : SlotMapHandle) :
    Option (Option T × SlotMap T) :=
  match s.indirection_indices[handle.indirection_index]? with
  | none => some (none, s)
  | some item_entry =>
    if handle.generation ≠ item_entry.generation then
      some (none, s)
    else
      let entries1 := s.indirection_indices.set handle.indirection_index
        ⟨item_entry.item_index, item_entry.generation + 1⟩
      match s.item_to_indirection_index.getLast? with
      | none => none
      | some lastIdx =>
        match entries1[lastIdx]? with
        | none => none
        | some lastEntry =>
          let entries2 := entries1.set lastIdx
            ⟨item_entry.item_index, lastEntry.generation⟩
          match swapRemove s.items item_entry.item_index,
                swapRemove s.item_to_indirection_index item_entry.item_index with
          | some (removed_item, items'), some (_, backrefs') =>
            some (some removed_item,
              { items := items'
                item_to_indirection_index := backrefs'
                indirection_indices := entries2
                free_indirection_indices :=
                  s.free_indirection_indices ++ [handle.indirection_index] })
          | _, _ => none

/-- `SlotMap::remove_unchecked_generation`: identical to `remove` but with
no generation test. -/
def SlotMap.remove_unchecked_generation (s : SlotMap T) (handle : SlotMapHandle) :
    Option (Option T × SlotMap T) :=
  match s.indirection_indices[handle.indirection_index]? with
  | none => some (none, s)
  | some item_entry =>
    let entries1 := s.indirection_indices.set handle.indirection_index
      ⟨item_entry.item_index, item_entry.generation + 1⟩
    match s.item_to_indirection_index.getLast? with
    | none => none
    | some lastIdx =>
      match entries1[lastIdx]? with
      | none => none
      | some lastEntry =>
        let entries2 := entries1.set lastIdx
          ⟨item_entry.item_index, lastEntry.generation⟩
        match swapRemove s.items item_entry.item_index,
              swapRemove s.item_to_indirection_index item_entry.item_index with
        | some (removed_item, items'), some (_, backrefs') =>
          some (some removed_item,
            { items := items'
              item_to_indirection_index := backrefs'
              indirection_indices := entries2
              free_indirection_indices :=
                s.free_indirection_indices ++ [handle.indirection_index] })
        | _, _ => none

/-- `SlotMap::get`: unchecked indexing into the indirection table (outer
`none` = panic), generation test, checked read of dense storage. What the
Rust function returns by reference is returned by value. -/
def SlotMap.get (s : SlotMap T) (handle : SlotMapHandle) : Option (Option T) :=
  match s.indirection_indices[handle.indirection_index]? with
  | none => none
  | some entry =>
    if entry.generation ≠ handle.generation then some none
    else some s.items[entry.item_index]?

/-- `SlotMap::get_mut`: same lookup as `get` (the distinction between `&T`
and `&mut T` disappears in a by-value model). -/
def SlotMap.get_mut (s : SlotMap T) (handle : SlotMapHandle) : Option (Option T) :=
  match s.indirection_indices[handle.indirection_index]? with
  | none => none
  | some entry =>
    if entry.generation ≠ handle.generation then some none
    else some s.items[entry.item_index]?

/-- `SlotMap::get_mut_twice`: resolve both handles through the indirection
table (unchecked: outer `none` = panic), compare the two dense positions,
and on inequality split dense storage at the larger one (`split_at_mut`
panics when that position exceeds the dense length). No generation test is
performed. The two mutable references are modelled by the values they
denote. -/
def SlotMap.get_mut_twice (s : SlotMap T) (handle0 handle1 : SlotMapHandle) :
    Option (Option T × Option T) :=
  match s.indirection_indices[handle0.indirection_index]?,
        s.indirection_indices[handle1.indirection_index]? with
  | some entry0, some entry1 =>
    if entry0.item_index = entry1.item_index then some (none, none)
    else if entry0.item_index < entry1.item_index then
      if entry1.item_index ≤ s.items.length then
        some (s.items[entry0.item_index]?, s.items[entry1.item_index]?)
      else none
    else
      if entry0.item_index ≤ s.items.length then
        some (s.items[entry0.item_index]?, s.items[entry1.item_index]?)
      else none
  | _, _ => none

/-- `SlotMap::get_unchecked_generation`: lookup with no generation test. -/
def SlotMap.get_unchecked_generation (s : SlotMap T) (handle : SlotMapHandle) :
    Option (Option T) :=
  match s.indirection_indices[handle.indirection_index]? with
  | none => none
  | some entry => some s.items[entry.item_index]?

/-! ## Linked-list layer (`src/linked_list_slot_map.rs`) -/

/-- `struct Node<T>`: a value plus optional previous/next handles into the
same arena. -/
structure Node (T : Type) where
  value : T
  next : Option SlotMapHandle
  previous : Option SlotMapHandle
deriving DecidableEq, Repr

/-- `LinkedListSlotMap<T>` wraps a `SlotMap<Node<T>>`; the wrapper adds no
state, so the embedding works on the inner slot map directly. -/
def LinkedListSlotMap (T : Type) : Type := SlotMap (Node T)

/-- A write through `self.slot_map.get_mut(h).unwrap()`: resolve the handle
with the generation test and replace the stored node by `f node`; `none`
models the `unwrap` panic (stale handle) or an indexing panic. -/
def modifyNode (s : SlotMap (Node T)) (h : SlotMapHandle) (f : Node T → Node T) :
    Option (SlotMap (Node T)) :=
  match s.indirection_indices[h.indirection_index]? with
  | none => none
  | some entry =>
    if entry.generation ≠ h.generation then none
    else
      match s.items[entry.item_index]? with
      | none => none
      | some node =>
        some { s with items := s.items.set entry.item_index (f node) }

/-- `LinkedListSlotMap::insert`: read the predecessor's `next`, push the new
node linked between them, then patch the predecessor's `next` and (when
present) the old successor's `previous`. -/
def LinkedListSlotMap.insert (s : SlotMap (Node T))
    (previous : Option SlotMapHandle) (value : T) :
    Option (SlotMapHandle × SlotMap (Node T)) :=
  match previous with
  | none =>
    SlotMap.push s ⟨value, none, none⟩
  | some p =>
    match SlotMap.get s p with
    | some (some pnode) =>
      match SlotMap.push s ⟨value, pnode.next, some p⟩ with
      | some (new_handle, s1) =>
        match modifyNode s1 p (fun n => { n with next := some new_handle }) with
        | some s2 =>
          match pnode.next with
          | none => some (new_handle, s2)
          | some nx =>
            match modifyNode s2 nx (fun n => { n with previous := some new_handle }) with
            | some s3 => some (new_handle, s3)
            | none => none
        | none => none
      | none => none
    | _ => none

/-- `LinkedListSlotMap::remove`: arena-remove the node (`unwrap` panics on a
stale handle), then splice its neighbors together; returns the value and the
former neighbors. -/
def LinkedListSlotMap.remove (s : SlotMap (Node T)) (node : SlotMapHandle) :
    Option ((T × Option SlotMapHandle × Option SlotMapHandle) × SlotMap (Node T)) :=
  match SlotMap.remove s node with
  | some (some n, s1) =>
    match (match n.previous with
           | none => some s1
           | some p => modifyNode s1 p (fun m => { m with next := n.next })) with
    | some s2 =>
      match (match n.next with
             | none => some s2
             | some nx => modifyNode s2 nx (fun m => { m with previous := n.previous })) with
      | some s3 => some ((n.value, n.previous, n.next), s3)
      | none => none
    | none => none
  | _ => none

/-- One step of `LinkedListSlotMapIterator::next` starting from
`current_node`, run to a list with a fuel bound: each step reads the
current node (`unwrap` panic modelled as `none`), yields the value/handle
pair and follows `next`. `forwardIterate s cur fuel = some l` states that
the iterator terminates within `fuel` steps yielding exactly `l`. -/
def forwardIterate (s : SlotMap (Node T)) :
    Option SlotMapHandle → Nat → Option (List (T × SlotMapHandle))
  | none, _ => some []
  | some _, 0 => none
  | some h, fuel + 1 =>
    match SlotMap.get s h with
    | some (some node) =>
      (forwardIterate s node.next fuel).map (fun l => (node.value, h) :: l)
    | _ => none

/-! ## Operation sequences and generation tracking -/

/-- Current generation of slot `j`, when the slot has ever been allocated. -/
def SlotMap.genOf (s : SlotMap T) (j : Nat) : Option Nat :=
  (s.indirection_indices[j]?).map Entry.generation

/-- A mutating arena operation. -/
inductive SMOp (T : Type) where
  | push (v : T)
  | remove (h : SlotMapHandle)
  | removeUnchecked (h : SlotMapHandle)

/-- Run one mutating operation, keeping only the resulting state. -/
def stepOp (s : SlotMap T) : SMOp T → Option (SlotMap T)
  | .push v => (SlotMap.push s v).map Prod.snd
  | .remove h => (SlotMap.remove s h).map Prod.snd
  | .removeUnchecked h => (SlotMap.remove_unchecked_generation s h).map Prod.snd

/-- Run a sequence of mutating operations. -/
def runOps (s : SlotMap T) : List (SMOp T) → Option (SlotMap T)
  | [] => some s
  | op :: rest =>
    match stepOp s op with
    | some s' => runOps s' rest
    | none => none

/-! ## Claims -/

/-- C3, counterexample: the handles `(0, 0)` and `(0, 1)` are equal under
the `PartialEq` impl (same `indirection_index`) but feed different data to
the hasher, so hashing is not determined by `indirection_index` alone. -/
theorem C3_counterexample :
    SlotMapHandle.eqImpl ⟨0, 0⟩ ⟨0, 1⟩ = true ∧
    SlotMapHandle.hashStream ⟨0, 0⟩ ≠ SlotMapHandle.hashStream ⟨0, 1⟩ := by
  decide

/-- C3, amended: equality and total ordering of handles are determined only
by `indirection_index`, but hashing feeds both `indirection_index` and
`generation` to the hasher, so two handles with the same index and
different generations are equal and ordered the same yet hash different
data. -/
theorem C3_amended (a b : SlotMapHandle) :
    (SlotMapHandle.eqImpl a b = true ↔ a.indirection_index = b.indirection_index) ∧
    SlotMapHandle.cmpImpl a b = compare a.indirection_index b.indirection_index ∧
    (SlotMapHandle.hashStream a = SlotMapHandle.hashStream b ↔
      a.indirection_index = b.indirection_index ∧ a.generation = b.generation) := by
  refine ⟨?_, rfl, ?_⟩
  · simp [SlotMapHandle.eqImpl]
  · simp [SlotMapHandle.hashStream]

/-- Witness for C3: the amended statement instantiated at `(0, 0)`, `(0, 1)`. -/
theorem C3_amended_witness :
    (SlotMapHandle.eqImpl ⟨0, 0⟩ ⟨0, 1⟩ = true ↔ (0 : Nat) = 0) ∧
    SlotMapHandle.cmpImpl ⟨0, 0⟩ ⟨0, 1⟩ = compare 0 0 ∧
    (SlotMapHandle.hashStream ⟨0, 0⟩ = SlotMapHandle.hashStream ⟨0, 1⟩ ↔
      (0 : Nat) = 0 ∧ (0 : Nat) = 1) :=
  C3_amended ⟨0, 0⟩ ⟨0, 1⟩

/-- C10: for a handle whose `indirection_index` is at least the number of
slots ever allocated, `remove` and `remove_unchecked_generation` return the
Rust `None` and leave the map unchanged (their entry lookup is checked),
while `get` and `get_mut` panic (they index the indirection table
unchecked). -/
theorem C10_out_of_range {T : Type} (s : SlotMap T) (h : SlotMapHandle)
    (hge : s.indirection_indices.length ≤ h.indirection_index) :
    SlotMap.remove s h = some (none, s) ∧
    SlotMap.remove_unchecked_generation s h = some (none, s) ∧
    SlotMap.get s h = none ∧
    SlotMap.get_mut s h = none := by
  have hnone : s.indirection_indices[h.indirection_index]? = none :=
    List.getElem?_eq_none hge
  refine ⟨?_, ?_, ?_, ?_⟩ <;>
    simp [SlotMap.remove, SlotMap.remove_unchecked_generation, SlotMap.get,
      SlotMap.get_mut, hnone]

/-- Witness for C10: the empty map and the handle `(0, 0)`. -/
theorem C10_out_of_range_witness :
    SlotMap.remove (SlotMap.new Nat) ⟨0, 0⟩ = some (none, SlotMap.new Nat) ∧
    SlotMap.remove_unchecked_generation (SlotMap.new Nat) ⟨0, 0⟩ =
      some (none, SlotMap.new Nat) ∧
    SlotMap.get (SlotMap.new Nat) ⟨0, 0⟩ = none ∧
    SlotMap.get_mut (SlotMap.new Nat) ⟨0, 0⟩ = none :=
  C10_out_of_range (SlotMap.new Nat) ⟨0, 0⟩ (by decide)

/-- C4: a successful `push` returns a handle under which `get`, performed
immediately afterwards, finds exactly the pushed value. -/
theorem C4_push_then_get {T : Type} (s : SlotMap T) (v : T)
    (h : SlotMapHandle) (s' : SlotMap T)
    (hp : SlotMap.push s v = some (h, s')) :
    SlotMap.get s' h = some (some v) := by
  unfold SlotMap.push SlotMap.new_handle_with_index at hp
  cases hfree : s.free_indirection_indices.getLast? with
  | none =>
    simp only [hfree] at hp
    obtain ⟨hh, hs⟩ := Prod.mk.injEq .. ▸ Option.some.injEq .. ▸ hp
    subst hh
    subst hs
    simp [SlotMap.get, List.getElem?_concat_length]
  | some j =>
    simp only [hfree] at hp
    cases hslot : s.indirection_indices[j]? with
    | none => simp [hslot] at hp
    | some slot =>
      simp only [hslot] at hp
      obtain ⟨hh, hs⟩ := Prod.mk.injEq .. ▸ Option.some.injEq .. ▸ hp
      subst hh
      subst hs
      have hj : j < s.indirection_indices.length :=
        (List.getElem?_eq_some_iff.mp hslot).1
      simp [SlotMap.get, List.getElem?_set_self (by simpa using hj),
        List.getElem?_concat_length]

/-- Witness for C4: pushing `7` into the empty map. -/
theorem C4_push_then_get_witness :
    SlotMap.get (⟨[7], [0], [⟨0, 0⟩], []⟩ : SlotMap Nat) ⟨0, 0⟩ = some (some 7) :=
  C4_push_then_get (SlotMap.new Nat) 7 ⟨0, 0⟩ ⟨[7], [0], [⟨0, 0⟩], []⟩ rfl

/-- C6: a successful `push` returns exactly the handle (same index and same
generation) that `next_handle` computed on the state immediately before. -/
theorem C6_next_handle_push {T : Type} (s : SlotMap T) (v : T)
    (h : SlotMapHandle) (s' : SlotMap T)
    (hp : SlotMap.push s v = some (h, s')) :
    SlotMap.next_handle s = some h := by
  unfold SlotMap.push SlotMap.new_handle_with_index at hp
  unfold SlotMap.next_handle
  cases hfree : s.free_indirection_indices.getLast? with
  | none =>
    simp only [hfree] at hp ⊢
    obtain ⟨hh, _⟩ := Prod.mk.injEq .. ▸ Option.some.injEq .. ▸ hp
    simp [hh]
  | some j =>
    simp only [hfree] at hp ⊢
    cases hslot : s.indirection_indices[j]? with
    | none => simp [hslot] at hp
    | some slot =>
      simp only [hslot] at hp ⊢
      obtain ⟨hh, _⟩ := Prod.mk.injEq .. ▸ Option.some.injEq .. ▸ hp
      simp [hh]

/-- Witness for C6: the empty map and the value `5`. -/
theorem C6_next_handle_push_witness :
    SlotMap.next_handle (SlotMap.new Nat) = some ⟨0, 0⟩ :=
  C6_next_handle_push (SlotMap.new Nat) 5 ⟨0, 0⟩ ⟨[5], [0], [⟨0, 0⟩], []⟩ rfl

/-- C7: inserting `"a"`, `"b"`, `"c"` into an empty arena yields handles
`(0,0)`, `(1,0)`, `(2,0)`; removing `hb` swap-removes the last element into
the vacated position so dense storage is exactly `["a", "c"]`, `get hc`
still returns `"c"`, and `get hb` is absent. -/
theorem C7_swap_remove_scenario :
    SlotMap.push (SlotMap.new String) "a" =
      some (⟨0, 0⟩, ⟨["a"], [0], [⟨0, 0⟩], []⟩) ∧
    SlotMap.push (⟨["a"], [0], [⟨0, 0⟩], []⟩ : SlotMap String) "b" =
      some (⟨1, 0⟩, ⟨["a", "b"], [0, 1], [⟨0, 0⟩, ⟨1, 0⟩], []⟩) ∧
    SlotMap.push (⟨["a", "b"], [0, 1], [⟨0, 0⟩, ⟨1, 0⟩], []⟩ : SlotMap String) "c" =
      some (⟨2, 0⟩, ⟨["a", "b", "c"], [0, 1, 2], [⟨0, 0⟩, ⟨1, 0⟩, ⟨2, 0⟩], []⟩) ∧
    SlotMap.remove
      (⟨["a", "b", "c"], [0, 1, 2], [⟨0, 0⟩, ⟨1, 0⟩, ⟨2, 0⟩], []⟩ : SlotMap String)
      ⟨1, 0⟩ =
      some (some "b", ⟨["a", "c"], [0, 2], [⟨0, 0⟩, ⟨1, 1⟩, ⟨1, 0⟩], [1]⟩) ∧
    SlotMap.get
      (⟨["a", "c"], [0, 2], [⟨0, 0⟩, ⟨1, 1⟩, ⟨1, 0⟩], [1]⟩ : SlotMap String)
      ⟨2, 0⟩ = some (some "c") ∧
    SlotMap.get
      (⟨["a", "c"], [0, 2], [⟨0, 0⟩, ⟨1, 1⟩, ⟨1, 0⟩], [1]⟩ : SlotMap String)
      ⟨1, 0⟩ = some none := by
  refine ⟨rfl, rfl, rfl, rfl, rfl, rfl⟩

/-- C1, counterexample: starting from the empty map, the slot of the first
handle has generation `0`; after `k = 1` removal the slot is reused and the
new handle's generation is `2`, not `0 + 1`: `remove` and the reuse in
`new_handle_with_index` each increment the generation. -/
theorem C1_counterexample :
    SlotMap.push (SlotMap.new Nat) 0 = some (⟨0, 0⟩, ⟨[0], [0], [⟨0, 0⟩], []⟩) ∧
    SlotMap.remove (⟨[0], [0], [⟨0, 0⟩], []⟩ : SlotMap Nat) ⟨0, 0⟩ =
      some (some 0, ⟨[], [], [⟨0, 1⟩], [0]⟩) ∧
    SlotMap.push (⟨[], [], [⟨0, 1⟩], [0]⟩ : SlotMap Nat) 1 =
      some (⟨0, 2⟩, ⟨[1], [0], [⟨0, 2⟩], []⟩) ∧
    (2 : Nat) ≠ 0 + 1 := by
  refine ⟨rfl, rfl, rfl, by decide⟩

/-- C2, counterexample: push `10`, `11`, `12`, then remove the first handle
`(0, 0)`, making it stale (`get` on it is absent). `get_mut_twice` with the
stale handle and the live handle `(1, 0)` nevertheless returns a value in
the stale handle's place (the value `12` now sitting at its entry's dense
position), because it never checks generations. -/
theorem C2_counterexample :
    SlotMap.push (SlotMap.new Nat) 10 = some (⟨0, 0⟩, ⟨[10], [0], [⟨0, 0⟩], []⟩) ∧
    SlotMap.push (⟨[10], [0], [⟨0, 0⟩], []⟩ : SlotMap Nat) 11 =
      some (⟨1, 0⟩, ⟨[10, 11], [0, 1], [⟨0, 0⟩, ⟨1, 0⟩], []⟩) ∧
    SlotMap.push (⟨[10, 11], [0, 1], [⟨0, 0⟩, ⟨1, 0⟩], []⟩ : SlotMap Nat) 12 =
      some (⟨2, 0⟩, ⟨[10, 11, 12], [0, 1, 2], [⟨0, 0⟩, ⟨1, 0⟩, ⟨2, 0⟩], []⟩) ∧
    SlotMap.remove
      (⟨[10, 11, 12], [0, 1, 2], [⟨0, 0⟩, ⟨1, 0⟩, ⟨2, 0⟩], []⟩ : SlotMap Nat)
      ⟨0, 0⟩ =
      some (some 10, ⟨[12, 11], [2, 1], [⟨0, 1⟩, ⟨1, 0⟩, ⟨0, 0⟩], [0]⟩) ∧
    SlotMap.get (⟨[12, 11], [2, 1], [⟨0, 1⟩, ⟨1, 0⟩, ⟨0, 0⟩], [0]⟩ : SlotMap Nat)
      ⟨0, 0⟩ = some none ∧
    SlotMap.get_mut_twice
      (⟨[12, 11], [2, 1], [⟨0, 1⟩, ⟨1, 0⟩, ⟨0, 0⟩], [0]⟩ : SlotMap Nat)
      ⟨0, 0⟩ ⟨1, 0⟩ = some (some 12, some 11) := by
  refine ⟨rfl, rfl, rfl, rfl, rfl, rfl⟩

/-- Characterization of a successful `remove`: the exact shape of the
resulting state in terms of the input state's fields. -/
theorem remove_success {T : Type} {s : SlotMap T} {h : SlotMapHandle}
    {t : T} {s' : SlotMap T}
    (hr : SlotMap.remove s h = some (some t, s')) :
    ∃ e lastIdx lastEntry items' b backrefs',
      s.indirection_indices[h.indirection_index]? = some e ∧
      h.generation = e.generation ∧
      s.item_to_indirection_index.getLast? = some lastIdx ∧
      (s.indirection_indices.set h.indirection_index
        ⟨e.item_index, e.generation + 1⟩)[lastIdx]? = some lastEntry ∧
      swapRemove s.items e.item_index = some (t, items') ∧
      swapRemove s.item_to_indirection_index e.item_index = some (b, backrefs') ∧
      s' = ⟨items', backrefs',
        (s.indirection_indices.set h.indirection_index
            ⟨e.item_index, e.generation + 1⟩).set lastIdx
          ⟨e.item_index, lastEntry.generation⟩,
        s.free_indirection_indices ++ [h.indirection_index]⟩ := by
  cases he : s.indirection_indices[h.indirection_index]? with
  | none => simp [SlotMap.remove, he] at hr
  | some e =>
    by_cases hgen : h.generation = e.generation
    · cases hlast : s.item_to_indirection_index.getLast? with
      | none => simp [SlotMap.remove, he, hgen, hlast] at hr
      | some lastIdx =>
        cases hle : (s.indirection_indices.set h.indirection_index
            ⟨e.item_index, e.generation + 1⟩)[lastIdx]? with
        | none => simp [SlotMap.remove, he, hgen, hlast, hle] at hr
        | some lastEntry =>
          cases hsw1 : swapRemove s.items e.item_index with
          | none => simp [SlotMap.remove, he, hgen, hlast, hle, hsw1] at hr
          | some p1 =>
            cases hsw2 : swapRemove s.item_to_indirection_index e.item_index with
            | none => simp [SlotMap.remove, he, hgen, hlast, hle, hsw1, hsw2] at hr
            | some p2 =>
              simp only [SlotMap.remove, he, hgen, hlast, hle, hsw1, hsw2,
                ne_eq, not_true_eq_false, if_false, ite_false,
                Option.some.injEq, Prod.mk.injEq, not_false_eq_true,
                if_true, ite_true] at hr
              obtain ⟨hv, hs⟩ := hr
              refine ⟨e, lastIdx, lastEntry, p1.2, p2.1, p2.2, rfl, hgen, rfl,
                hle, ?_, hsw2, hs.symm⟩
              rw [← hv]
              exact hsw1
    · simp [SlotMap.remove, he, hgen] at hr

/-- After a successful `remove` of `h`, the slot named by `h` still exists
and its generation is exactly `h.generation + 1`. -/
theorem remove_success_gen_bump {T : Type} {s : SlotMap T} {h : SlotMapHandle}
    {t : T} {s' : SlotMap T}
    (hr : SlotMap.remove s h = some (some t, s')) :
    ∃ e', s'.indirection_indices[h.indirection_index]? = some e' ∧
      e'.generation = h.generation + 1 := by
  obtain ⟨e, lastIdx, lastEntry, items', b, backrefs', he, hgen, hlast, hle,
    hsw1, hsw2, hs⟩ := remove_success hr
  have hlt : h.indirection_index < s.indirection_indices.length :=
    (List.getElem?_eq_some_iff.mp he).1
  subst hs
  by_cases hcase : lastIdx = h.indirection_index
  · subst hcase
    rw [List.getElem?_set_self (by simpa using hlt)] at hle
    cases hle
    refine ⟨⟨e.item_index, e.generation + 1⟩, ?_, by rw [hgen]⟩
    rw [List.getElem?_set_self (by simpa using hlt)]
  · refine ⟨⟨e.item_index, e.generation + 1⟩, ?_, by rw [hgen]⟩
    rw [List.getElem?_set_ne hcase]
    exact List.getElem?_set_self (by simpa using hlt)

/-- C5: once `remove h` has succeeded, `get h` is absent and a second
`remove h` is also absent and returns the map completely unchanged (all
four vectors included): the second call fails the generation test before
mutating anything. -/
theorem C5_remove_idempotent_failure {T : Type} (s : SlotMap T)
    (h : SlotMapHandle) (t : T) (s' : SlotMap T)
    (hr : SlotMap.remove s h = some (some t, s')) :
    SlotMap.get s' h = some none ∧
    SlotMap.remove s' h = some (none, s') := by
  obtain ⟨e', he', hgen'⟩ := remove_success_gen_bump hr
  have hne : e'.generation ≠ h.generation := by omega
  have hne' : h.generation ≠ e'.generation := fun hh => hne hh.symm
  constructor
  · simp [SlotMap.get, he', hne]
  · simp [SlotMap.remove, he', hne']

/-- Witness for C5: removing the only element of a one-element map. -/
theorem C5_remove_idempotent_failure_witness :
    SlotMap.get (⟨[], [], [⟨0, 1⟩], [0]⟩ : SlotMap Nat) ⟨0, 0⟩ = some none ∧
    SlotMap.remove (⟨[], [], [⟨0, 1⟩], [0]⟩ : SlotMap Nat) ⟨0, 0⟩ =
      some (none, ⟨[], [], [⟨0, 1⟩], [0]⟩) :=
  C5_remove_idempotent_failure ⟨[5], [0], [⟨0, 0⟩], []⟩ ⟨0, 0⟩ 5
    ⟨[], [], [⟨0, 1⟩], [0]⟩ rfl

/-- Once the forward iterator terminates within some fuel, any larger fuel
returns the same finite sequence. -/
theorem forwardIterate_mono {T : Type} (s : SlotMap (Node T)) :
    ∀ (fuel fuel' : Nat) (cur : Option SlotMapHandle) (l : List (T × SlotMapHandle)),
      fuel ≤ fuel' → forwardIterate s cur fuel = some l →
      forwardIterate s cur fuel' = some l := by
  intro fuel
  induction fuel with
  | zero =>
    intro fuel' cur l _ hit
    cases cur with
    | none => simpa [forwardIterate] using hit
    | some h => simp [forwardIterate] at hit
  | succ k ih =>
    intro fuel' cur l hle hit
    cases cur with
    | none => simpa [forwardIterate] using hit
    | some h =>
      obtain ⟨k', rfl⟩ : ∃ k', fuel' = k' + 1 :=
        ⟨fuel' - 1, by omega⟩
      have hk : k ≤ k' := by omega
      cases hg : SlotMap.get s h with
      | none => simp [forwardIterate, hg] at hit
      | some o =>
        cases o with
        | none => simp [forwardIterate, hg] at hit
        | some node =>
          simp only [forwardIterate, hg, Option.map_eq_some'] at hit ⊢
          obtain ⟨l', hl', rfl⟩ := hit
          exact ⟨l', ih k' node.next l' hk hl', rfl⟩

/-- C8: in an empty linked-list slot map, `insert(None, 1)` gives `h1`,
`insert(Some h1, 2)` gives `h2`, `insert(Some h1, 3)` gives `h3` (spliced
between node 1 and node 2), and forward iteration from `h1` terminates
after yielding exactly the values `[1, 3, 2]` (any fuel of at least three
steps returns that sequence). -/
theorem C8_splice_scenario (n : Nat) :
    LinkedListSlotMap.insert (SlotMap.new (Node Nat)) none 1 =
      some (⟨0, 0⟩, ⟨[⟨1, none, none⟩], [0], [⟨0, 0⟩], []⟩) ∧
    LinkedListSlotMap.insert
      (⟨[⟨1, none, none⟩], [0], [⟨0, 0⟩], []⟩ : SlotMap (Node Nat))
      (some ⟨0, 0⟩) 2 =
      some (⟨1, 0⟩,
        ⟨[⟨1, some ⟨1, 0⟩, none⟩, ⟨2, none, some ⟨0, 0⟩⟩],
          [0, 1], [⟨0, 0⟩, ⟨1, 0⟩], []⟩) ∧
    LinkedListSlotMap.insert
      (⟨[⟨1, some ⟨1, 0⟩, none⟩, ⟨2, none, some ⟨0, 0⟩⟩],
        [0, 1], [⟨0, 0⟩, ⟨1, 0⟩], []⟩ : SlotMap (Node Nat))
      (some ⟨0, 0⟩) 3 =
      some (⟨2, 0⟩,
        ⟨[⟨1, some ⟨2, 0⟩, none⟩, ⟨2, none, some ⟨2, 0⟩⟩,
            ⟨3, some ⟨1, 0⟩, some ⟨0, 0⟩⟩],
          [0, 1, 2], [⟨0, 0⟩, ⟨1, 0⟩, ⟨2, 0⟩], []⟩) ∧
    (forwardIterate
      (⟨[⟨1, some ⟨2, 0⟩, none⟩, ⟨2, none, some ⟨2, 0⟩⟩,
          ⟨3, some ⟨1, 0⟩, some ⟨0, 0⟩⟩],
        [0, 1, 2], [⟨0, 0⟩, ⟨1, 0⟩, ⟨2, 0⟩], []⟩ : SlotMap (Node Nat))
      (some ⟨0, 0⟩) (n + 3)).map (List.map Prod.fst) = some [1, 3, 2] := by
  refine ⟨rfl, rfl, rfl, ?_⟩
  rw [forwardIterate_mono _ 3 (n + 3) _
    [(1, ⟨0, 0⟩), (3, ⟨2, 0⟩), (2, ⟨1, 0⟩)] (by omega) (by rfl)]
  rfl

/-- Witness for C8: the scenario with fuel exactly three. -/
theorem C8_splice_scenario_witness :
    (forwardIterate
      (⟨[⟨1, some ⟨2, 0⟩, none⟩, ⟨2, none, some ⟨2, 0⟩⟩,
          ⟨3, some ⟨1, 0⟩, some ⟨0, 0⟩⟩],
        [0, 1, 2], [⟨0, 0⟩, ⟨1, 0⟩, ⟨2, 0⟩], []⟩ : SlotMap (Node Nat))
      (some ⟨0, 0⟩) (0 + 3)).map (List.map Prod.fst) = some [1, 3, 2] :=
  (C8_splice_scenario 0).2.2.2

/-- C2, amended: `get_mut_twice` performs no generation validation. With
both indirection entries in range it returns `(absent, absent)` exactly
when the two entries resolve to the same dense position — in particular
`get_mut_twice s h h` is always `(absent, absent)` — and when the positions
differ (with the larger one within the `split_at_mut` bound) it returns the
values at the two resolved dense positions, whether or not either handle's
generation is stale. -/
theorem C2_amended :
    (∀ (T : Type) (s : SlotMap T) (h : SlotMapHandle) (e : Entry),
      s.indirection_indices[h.indirection_index]? = some e →
      SlotMap.get_mut_twice s h h = some (none, none)) ∧
    (∀ (T : Type) (s : SlotMap T) (h0 h1 : SlotMapHandle) (e0 e1 : Entry),
      s.indirection_indices[h0.indirection_index]? = some e0 →
      s.indirection_indices[h1.indirection_index]? = some e1 →
      (e0.item_index = e1.item_index →
        SlotMap.get_mut_twice s h0 h1 = some (none, none)) ∧
      (e0.item_index ≠ e1.item_index →
        max e0.item_index e1.item_index ≤ s.items.length →
        SlotMap.get_mut_twice s h0 h1 =
          some (s.items[e0.item_index]?, s.items[e1.item_index]?))) := by
  constructor
  · intro T s h e he
    simp [SlotMap.get_mut_twice, he]
  · intro T s h0 h1 e0 e1 he0 he1
    constructor
    · intro heq
      simp [SlotMap.get_mut_twice, he0, he1, heq]
    · intro hne hmax
      rcases Nat.lt_or_ge e0.item_index e1.item_index with hlt | hge
      · have h1le : e1.item_index ≤ s.items.length := le_of_max_le_right hmax
        simp [SlotMap.get_mut_twice, he0, he1, hne, hlt, h1le]
      · have hgt : e1.item_index < e0.item_index :=
          lt_of_le_of_ne hge (fun hh => hne hh.symm)
        have h0le : e0.item_index ≤ s.items.length := le_of_max_le_left hmax
        simp [SlotMap.get_mut_twice, he0, he1, hne, Nat.not_lt.mpr hge, h0le]

/-- Witness for C2: the amended statement applied to the post-removal state
of the counterexample, with the stale handle `(0, 0)` and the live handle
`(1, 0)`. -/
theorem C2_amended_witness :
    SlotMap.get_mut_twice
      (⟨[12, 11], [2, 1], [⟨0, 1⟩, ⟨1, 0⟩, ⟨0, 0⟩], [0]⟩ : SlotMap Nat)
      ⟨0, 0⟩ ⟨1, 0⟩ =
      some ((⟨[12, 11], [2, 1], [⟨0, 1⟩, ⟨1, 0⟩, ⟨0, 0⟩], [0]⟩ :
          SlotMap Nat).items[0]?,
        (⟨[12, 11], [2, 1], [⟨0, 1⟩, ⟨1, 0⟩, ⟨0, 0⟩], [0]⟩ :
          SlotMap Nat).items[1]?) :=
  ((C2_amended.2 Nat ⟨[12, 11], [2, 1], [⟨0, 1⟩, ⟨1, 0⟩, ⟨0, 0⟩], [0]⟩
    ⟨0, 0⟩ ⟨1, 0⟩ ⟨0, 1⟩ ⟨1, 0⟩ rfl rfl).2 (by decide) (by decide))

/-- Generation monotonicity of the indirection-table update performed by a
successful removal: bump slot `k`, then patch `lastIdx`'s `item_index`
keeping its generation. -/
theorem entries2_gen_mono (entries : List Entry) (k lastIdx : Nat)
    (e lastEntry : Entry) (he : entries[k]? = some e)
    (hle : (entries.set k ⟨e.item_index, e.generation + 1⟩)[lastIdx]? =
      some lastEntry) :
    ∀ (j : Nat) (e0 : Entry), entries[j]? = some e0 →
      ∃ e', ((entries.set k ⟨e.item_index, e.generation + 1⟩).set lastIdx
          ⟨e.item_index, lastEntry.generation⟩)[j]? = some e' ∧
        e0.generation ≤ e'.generation := by
  intro j e0 hj
  have hk : k < entries.length := (List.getElem?_eq_some_iff.mp he).1
  have hlast : lastIdx < entries.length := by
    simpa using (List.getElem?_eq_some_iff.mp hle).1
  rw [List.getElem?_set] at hle
  rw [List.getElem?_set, List.getElem?_set]
  simp only [List.length_set]
  by_cases hlj : lastIdx = j
  · subst hlj
    simp only [if_pos rfl, if_pos hlast, Option.some.injEq]
    refine ⟨⟨e.item_index, lastEntry.generation⟩, rfl, ?_⟩
    by_cases hkl : k = lastIdx
    · subst hkl
      rw [if_pos rfl, if_pos hk] at hle
      cases hle
      have : e0 = e := by rw [he] at hj; cases hj; rfl
      subst this
      exact Nat.le_succ _
    · rw [if_neg hkl] at hle
      rw [hj] at hle
      cases hle
      exact Nat.le_refl _
  · rw [if_neg hlj]
    by_cases hkj : k = j
    · subst hkj
      have : e0 = e := by rw [he] at hj; cases hj; rfl
      subst this
      exact ⟨⟨e0.item_index, e0.generation + 1⟩, by rw [if_pos rfl, if_pos hk],
        Nat.le_succ _⟩
    · exact ⟨e0, by rw [if_neg hkj, hj], Nat.le_refl _⟩

/-- A `remove` that returns the Rust `None` leaves the map unchanged. -/
theorem remove_none {T : Type} {s : SlotMap T} {h : SlotMapHandle}
    {s' : SlotMap T} (hr : SlotMap.remove s h = some (none, s')) : s' = s := by
  cases he : s.indirection_indices[h.indirection_index]? with
  | none =>
    simp only [SlotMap.remove, he, Option.some.injEq, Prod.mk.injEq] at hr
    exact hr.2.symm
  | some e =>
    by_cases hgen : h.generation = e.generation
    · cases hlast : s.item_to_indirection_index.getLast? with
      | none => simp [SlotMap.remove, he, hgen, hlast] at hr
      | some lastIdx =>
        cases hle : (s.indirection_indices.set h.indirection_index
            ⟨e.item_index, e.generation + 1⟩)[lastIdx]? with
        | none => simp [SlotMap.remove, he, hgen, hlast, hle] at hr
        | some lastEntry =>
          cases hsw1 : swapRemove s.items e.item_index with
          | none => simp [SlotMap.remove, he, hgen, hlast, hle, hsw1] at hr
          | some p1 =>
            cases hsw2 : swapRemove s.item_to_indirection_index e.item_index with
            | none => simp [SlotMap.remove, he, hgen, hlast, hle, hsw1, hsw2] at hr
            | some p2 => simp [SlotMap.remove, he, hgen, hlast, hle, hsw1, hsw2] at hr
    · simp only [SlotMap.remove, he, ne_eq, hgen, not_false_eq_true, if_true,
        ite_true, Option.some.injEq, Prod.mk.injEq] at hr
      exact hr.2.symm

/-- Per-operation generation monotonicity for `push`: every already
allocated slot keeps a generation at least as large as before. -/
theorem push_gen_mono {T : Type} {s : SlotMap T} {v : T} {h : SlotMapHandle}
    {s' : SlotMap T} (hp : SlotMap.push s v = some (h, s')) :
    ∀ (j : Nat) (e0 : Entry), s.indirection_indices[j]? = some e0 →
      ∃ e', s'.indirection_indices[j]? = some e' ∧
        e0.generation ≤ e'.generation := by
  intro j e0 hj
  unfold SlotMap.push SlotMap.new_handle_with_index at hp
  cases hfree : s.free_indirection_indices.getLast? with
  | none =>
    simp only [hfree] at hp
    obtain ⟨-, hs⟩ := Prod.mk.injEq .. ▸ Option.some.injEq .. ▸ hp
    subst hs
    have hjlt : j < s.indirection_indices.length :=
      (List.getElem?_eq_some_iff.mp hj).1
    exact ⟨e0, by simpa [List.getElem?_append_left hjlt] using hj,
      Nat.le_refl _⟩
  | some k =>
    simp only [hfree] at hp
    cases hslot : s.indirection_indices[k]? with
    | none => simp [hslot] at hp
    | some slot =>
      simp only [hslot] at hp
      obtain ⟨-, hs⟩ := Prod.mk.injEq .. ▸ Option.some.injEq .. ▸ hp
      subst hs
      by_cases hkj : k = j
      · subst hkj
        have : e0 = slot := by rw [hslot] at hj; cases hj; rfl
        subst this
        have hk : k < s.indirection_indices.length :=
          (List.getElem?_eq_some_iff.mp hslot).1
        exact ⟨⟨s.items.length, e0.generation + 1⟩,
          by simpa using List.getElem?_set_self (by simpa using hk),
          Nat.le_succ _⟩
      · exact ⟨e0, by simpa [List.getElem?_set_ne hkj] using hj, Nat.le_refl _⟩

/-- Per-operation generation monotonicity for `remove` (covering both the
not-found and the successful outcome). -/
theorem remove_gen_mono {T : Type} {s : SlotMap T} {h : SlotMapHandle}
    {r : Option T} {s' : SlotMap T}
    (hr : SlotMap.remove s h = some (r, s')) :
    ∀ (j : Nat) (e0 : Entry), s.indirection_indices[j]? = some e0 →
      ∃ e', s'.indirection_indices[j]? = some e' ∧
        e0.generation ≤ e'.generation := by
  intro j e0 hj
  cases r with
  | none =>
    rw [remove_none hr]
    exact ⟨e0, hj, Nat.le_refl _⟩
  | some t =>
    obtain ⟨e, lastIdx, lastEntry, items', b, backrefs', he, hgen, hlast, hle,
      hsw1, hsw2, hs⟩ := remove_success hr
    subst hs
    exact entries2_gen_mono s.indirection_indices h.indirection_index lastIdx
      e lastEntry he hle j e0 hj

/-- Per-operation generation monotonicity for
`remove_unchecked_generation`. -/
theorem remove_unchecked_gen_mono {T : Type} {s : SlotMap T}
    {h : SlotMapHandle} {r : Option T} {s' : SlotMap T}
    (hr : SlotMap.remove_unchecked_generation s h = some (r, s')) :
    ∀ (j : Nat) (e0 : Entry), s.indirection_indices[j]? = some e0 →
      ∃ e', s'.indirection_indices[j]? = some e' ∧
        e0.generation ≤ e'.generation := by
  intro j e0 hj
  cases he : s.indirection_indices[h.indirection_index]? with
  | none =>
    simp only [SlotMap.remove_unchecked_generation, he, Option.some.injEq,
      Prod.mk.injEq] at hr
    rw [← hr.2]
    exact ⟨e0, hj, Nat.le_refl _⟩
  | some e =>
    cases hlast : s.item_to_indirection_index.getLast? with
    | none => simp [SlotMap.remove_unchecked_generation, he, hlast] at hr
    | some lastIdx =>
      cases hle : (s.indirection_indices.set h.indirection_index
          ⟨e.item_index, e.generation + 1⟩)[lastIdx]? with
      | none => simp [SlotMap.remove_unchecked_generation, he, hlast, hle] at hr
      | some lastEntry =>
        cases hsw1 : swapRemove s.items e.item_index with
        | none =>
          simp [SlotMap.remove_unchecked_generation, he, hlast, hle, hsw1] at hr
        | some p1 =>
          cases hsw2 : swapRemove s.item_to_indirection_index e.item_index with
          | none =>
            simp [SlotMap.remove_unchecked_generation, he, hlast, hle,
              hsw1, hsw2] at hr
          | some p2 =>
            simp only [SlotMap.remove_unchecked_generation, he, hlast, hle,
              hsw1, hsw2, Option.some.injEq, Prod.mk.injEq] at hr
            rw [← hr.2]
            exact entries2_gen_mono s.indirection_indices h.indirection_index
              lastIdx e lastEntry he hle j e0 hj

/-- Generation monotonicity of a whole operation sequence. -/
theorem runOps_gen_mono {T : Type} :
    ∀ (ops : List (SMOp T)) (s s' : SlotMap T), runOps s ops = some s' →
      ∀ (j : Nat) (e0 : Entry), s.indirection_indices[j]? = some e0 →
        ∃ e', s'.indirection_indices[j]? = some e' ∧
          e0.generation ≤ e'.generation := by
  intro ops
  induction ops with
  | nil =>
    intro s s' hrun j e0 hj
    cases hrun
    exact ⟨e0, hj, Nat.le_refl _⟩
  | cons op rest ih =>
    intro s s' hrun j e0 hj
    cases hstep : stepOp s op with
    | none => simp [runOps, hstep] at hrun
    | some s1 =>
      rw [runOps, hstep] at hrun
      have hj1 : ∃ e1, s1.indirection_indices[j]? = some e1 ∧
          e0.generation ≤ e1.generation := by
        cases op with
        | push v =>
          cases hp : SlotMap.push s v with
          | none => simp [stepOp, hp] at hstep
          | some p =>
            obtain ⟨h1, s1b⟩ := p
            rw [stepOp, hp] at hstep
            cases hstep
            exact push_gen_mono hp j e0 hj
        | remove hh =>
          cases hp : SlotMap.remove s hh with
          | none => simp [stepOp, hp] at hstep
          | some p =>
            obtain ⟨r1, s1b⟩ := p
            rw [stepOp, hp] at hstep
            cases hstep
            exact remove_gen_mono hp j e0 hj
        | removeUnchecked hh =>
          cases hp : SlotMap.remove_unchecked_generation s hh with
          | none => simp [stepOp, hp] at hstep
          | some p =>
            obtain ⟨r1, s1b⟩ := p
            rw [stepOp, hp] at hstep
            cases hstep
            exact remove_unchecked_gen_mono hp j e0 hj
      obtain ⟨e1, he1, hle1⟩ := hj1
      obtain ⟨e', he', hle'⟩ := ih s1 s' hrun j e1 he1
      exact ⟨e', he', Nat.le_trans hle1 hle'⟩

/-- A successful `push` gives the new handle exactly its slot's current
generation, and when the slot already existed (a reuse) the new generation
is the previous one plus one. -/
theorem push_gen_exact {T : Type} {s : SlotMap T} {v : T} {h : SlotMapHandle}
    {s' : SlotMap T} (hp : SlotMap.push s v = some (h, s')) :
    SlotMap.genOf s' h.indirection_index = some h.generation ∧
    ∀ g0, SlotMap.genOf s h.indirection_index = some g0 →
      h.generation = g0 + 1 := by
  unfold SlotMap.push SlotMap.new_handle_with_index at hp
  cases hfree : s.free_indirection_indices.getLast? with
  | none =>
    simp only [hfree] at hp
    obtain ⟨hh, hs⟩ := Prod.mk.injEq .. ▸ Option.some.injEq .. ▸ hp
    subst hh
    subst hs
    constructor
    · simp [SlotMap.genOf, List.getElem?_concat_length]
    · intro g0 hg0
      simp only [SlotMap.genOf, Option.map_eq_some'] at hg0
      obtain ⟨e0, he0, -⟩ := hg0
      exact absurd ((List.getElem?_eq_some_iff.mp he0).1) (by simp)
  | some k =>
    simp only [hfree] at hp
    cases hslot : s.indirection_indices[k]? with
    | none => simp [hslot] at hp
    | some slot =>
      simp only [hslot] at hp
      obtain ⟨hh, hs⟩ := Prod.mk.injEq .. ▸ Option.some.injEq .. ▸ hp
      subst hh
      subst hs
      have hk : k < s.indirection_indices.length :=
        (List.getElem?_eq_some_iff.mp hslot).1
      constructor
      · simp [SlotMap.genOf, List.getElem?_set_self (by simpa using hk)]
      · intro g0 hg0
        simp only [SlotMap.genOf, hslot, Option.map_some', Option.some.injEq] at hg0
        simp [← hg0]

/-- A successful `remove` finds the slot at exactly the handle's generation
and leaves it at exactly that generation plus one. -/
theorem remove_gen_exact {T : Type} {s : SlotMap T} {h : SlotMapHandle}
    {t : T} {s' : SlotMap T}
    (hr : SlotMap.remove s h = some (some t, s')) :
    SlotMap.genOf s h.indirection_index = some h.generation ∧
    SlotMap.genOf s' h.indirection_index = some (h.generation + 1) := by
  obtain ⟨e, lastIdx, lastEntry, items', b, backrefs', he, hgen, hlast, hle,
    hsw1, hsw2, hs⟩ := remove_success hr
  obtain ⟨e', he', hgen'⟩ := remove_success_gen_bump hr
  exact ⟨by simp [SlotMap.genOf, he, hgen], by simp [SlotMap.genOf, he', hgen']⟩

/-- A handle whose generation differs from its slot's current generation is
rejected by `get`, `get_mut` and `remove`, the latter leaving the map
unchanged. -/
theorem stale_rejected {T : Type} (s : SlotMap T) (h : SlotMapHandle)
    (e : Entry) (he : s.indirection_indices[h.indirection_index]? = some e)
    (hne : h.generation ≠ e.generation) :
    SlotMap.get s h = some none ∧ SlotMap.get_mut s h = some none ∧
    SlotMap.remove s h = some (none, s) := by
  have hne' : e.generation ≠ h.generation := fun hh => hne hh.symm
  exact ⟨by simp [SlotMap.get, he, hne'], by simp [SlotMap.get_mut, he, hne'],
    by simp [SlotMap.remove, he, hne]⟩

/-- C1, amended: across any sequence of operations a slot's generation
never decreases; a successful `remove` of handle `h` finds the slot at
generation `h.generation` and leaves it at `h.generation + 1`; an insert
that reuses an existing slot also adds one to its generation (so a slot
reused after `k` removals, with the `k` accompanying reuses, has gained
exactly `2 * k`, not `k`); and any handle whose generation differs from its
slot's current one — in particular any handle captured before a later
removal of that slot — is rejected by `get`, `get_mut` and `remove`, the
rejecting `remove` leaving the map unchanged. -/
theorem C1_amended :
    (∀ (T : Type) (ops : List (SMOp T)) (s s' : SlotMap T),
      runOps s ops = some s' →
      ∀ (j : Nat) (e0 : Entry), s.indirection_indices[j]? = some e0 →
        ∃ e', s'.indirection_indices[j]? = some e' ∧
          e0.generation ≤ e'.generation) ∧
    (∀ (T : Type) (s : SlotMap T) (h : SlotMapHandle) (t : T) (s' : SlotMap T),
      SlotMap.remove s h = some (some t, s') →
      SlotMap.genOf s h.indirection_index = some h.generation ∧
      SlotMap.genOf s' h.indirection_index = some (h.generation + 1)) ∧
    (∀ (T : Type) (s : SlotMap T) (v : T) (h : SlotMapHandle) (s' : SlotMap T),
      SlotMap.push s v = some (h, s') →
      SlotMap.genOf s' h.indirection_index = some h.generation ∧
      ∀ g0, SlotMap.genOf s h.indirection_index = some g0 →
        h.generation = g0 + 1) ∧
    (∀ (T : Type) (s : SlotMap T) (h : SlotMapHandle) (e : Entry),
      s.indirection_indices[h.indirection_index]? = some e →
      h.generation ≠ e.generation →
      SlotMap.get s h = some none ∧ SlotMap.get_mut s h = some none ∧
      SlotMap.remove s h = some (none, s)) :=
  ⟨fun _ ops s s' hrun => runOps_gen_mono ops s s' hrun,
   fun _ _ _ _ _ hr => remove_gen_exact hr,
   fun _ _ _ _ _ hp => push_gen_exact hp,
   fun _ s h e he hne => stale_rejected s h e he hne⟩

/-- Witness for C1: every conjunct of the amended statement instantiated on
the concrete push/remove/push trace of the counterexample. -/
theorem C1_amended_witness :
    (∃ e', (⟨[], [], [⟨0, 1⟩], [0]⟩ : SlotMap Nat).indirection_indices[0]? =
        some e' ∧ (⟨0, 0⟩ : Entry).generation ≤ e'.generation) ∧
    (SlotMap.genOf (⟨[5], [0], [⟨0, 0⟩], []⟩ : SlotMap Nat) 0 = some 0 ∧
      SlotMap.genOf (⟨[], [], [⟨0, 1⟩], [0]⟩ : SlotMap Nat) 0 = some (0 + 1)) ∧
    ((2 : Nat) = 1 + 1) ∧
    (SlotMap.get (⟨[], [], [⟨0, 1⟩], [0]⟩ : SlotMap Nat) ⟨0, 0⟩ = some none ∧
      SlotMap.get_mut (⟨[], [], [⟨0, 1⟩], [0]⟩ : SlotMap Nat) ⟨0, 0⟩ =
        some none ∧
      SlotMap.remove (⟨[], [], [⟨0, 1⟩], [0]⟩ : SlotMap Nat) ⟨0, 0⟩ =
        some (none, ⟨[], [], [⟨0, 1⟩], [0]⟩)) :=
  ⟨C1_amended.1 Nat [SMOp.remove ⟨0, 0⟩] ⟨[5], [0], [⟨0, 0⟩], []⟩
      ⟨[], [], [⟨0, 1⟩], [0]⟩ rfl 0 ⟨0, 0⟩ rfl,
   C1_amended.2.1 Nat ⟨[5], [0], [⟨0, 0⟩], []⟩ ⟨0, 0⟩ 5
      ⟨[], [], [⟨0, 1⟩], [0]⟩ rfl,
   (C1_amended.2.2.1 Nat ⟨[], [], [⟨0, 1⟩], [0]⟩ 1 ⟨0, 2⟩
      ⟨[1], [0], [⟨0, 2⟩], []⟩ rfl).2 1 rfl,
   C1_amended.2.2.2 Nat ⟨[], [], [⟨0, 1⟩], [0]⟩ ⟨0, 0⟩ ⟨0, 1⟩ rfl
      (by decide)⟩

/-! ## Linked-list invariants (C9) -/

/-- Arena well-formedness: the back-reference table and dense storage have
equal length, every back-reference points to an entry that points back, and
the free stack holds only in-range, dead, pairwise-distinct slots. -/
structure ArenaWF (s : SlotMap T) : Prop where
  len_eq : s.item_to_indirection_index.length = s.items.length
  backref : ∀ (i j : Nat), s.item_to_indirection_index[i]? = some j →
    ∃ e, s.indirection_indices[j]? = some e ∧ e.item_index = i
  free_lt : ∀ j ∈ s.free_indirection_indices, j < s.indirection_indices.length
  free_dead : ∀ j ∈ s.free_indirection_indices,
    j ∉ s.item_to_indirection_index
  free_nodup : s.free_indirection_indices.Nodup

/-- The canonical handle of the slot owning dense position `i`: its
indirection index paired with that slot's current generation (what
`iter_with_handle` reconstructs). -/
def handleAt (s : SlotMap T) (i : Nat) : Option SlotMapHandle :=
  match s.item_to_indirection_index[i]? with
  | some j =>
    match s.indirection_indices[j]? with
    | some e => some ⟨j, e.generation⟩
    | none => none
  | none => none

/-- Sanity of a handle stored inside a node: its slot exists, its
generation does not exceed the slot's current generation, and when it is
current the slot is live (owns a dense position). -/
def LinkOK (s : SlotMap T) (h : SlotMapHandle) : Prop :=
  ∃ e, s.indirection_indices[h.indirection_index]? = some e ∧
    h.generation ≤ e.generation ∧
    (h.generation = e.generation →
      h.indirection_index ∈ s.item_to_indirection_index)

/-- Every handle stored in any live node's `next`/`previous` is sane. -/
def LinksWF (s : SlotMap (Node T)) : Prop :=
  ∀ (i : Nat) (n : Node T), s.items[i]? = some n →
    (∀ h, n.next = some h → LinkOK s h) ∧
    (∀ h, n.previous = some h → LinkOK s h)

/-- Link mutual consistency: whenever a live node's `next` field equals the
(generation-current) handle of a live node, that neighbor's `previous`
field equals the first node's handle, and symmetrically. -/
def MutualConsistent (s : SlotMap (Node T)) : Prop :=
  ∀ (i j : Nat) (hi hj : SlotMapHandle) (ni nj : Node T),
    handleAt s i = some hi → s.items[i]? = some ni →
    handleAt s j = some hj → s.items[j]? = some nj →
    (ni.next = some hj → nj.previous = some hi) ∧
    (ni.previous = some hj → nj.next = some hi)

/-- The full linked-list invariant. -/
structure LLInv (s : SlotMap (Node T)) : Prop where
  wf : ArenaWF s
  links : LinksWF s
  mc : MutualConsistent s

/-- A handle whose slot currently owns a dense position. -/
def liveHandle (s : SlotMap T) (h : SlotMapHandle) : Prop :=
  h.indirection_index ∈ s.item_to_indirection_index

/-- Destructor for `handleAt`. -/
theorem handleAt_elim {T : Type} {s : SlotMap T} {i : Nat} {h : SlotMapHandle}
    (hh : handleAt s i = some h) :
    ∃ e, s.item_to_indirection_index[i]? = some h.indirection_index ∧
      s.indirection_indices[h.indirection_index]? = some e ∧
      e.generation = h.generation := by
  cases hj : s.item_to_indirection_index[i]? with
  | none => simp [handleAt, hj] at hh
  | some j =>
    cases he : s.indirection_indices[j]? with
    | none => simp [handleAt, hj, he] at hh
    | some e =>
      simp only [handleAt, hj, he] at hh
      cases hh
      exact ⟨e, rfl, he, rfl⟩

/-- Constructor for `handleAt`. -/
theorem handleAt_intro {T : Type} {s : SlotMap T} {i j : Nat} {e : Entry}
    (h1 : s.item_to_indirection_index[i]? = some j)
    (h2 : s.indirection_indices[j]? = some e) :
    handleAt s i = some ⟨j, e.generation⟩ := by
  simp only [handleAt, h1, h2]

/-- Two dense positions with the same back-reference coincide. -/
theorem i2i_inj {T : Type} {s : SlotMap T} (wf : ArenaWF s) {i i' j : Nat}
    (h1 : s.item_to_indirection_index[i]? = some j)
    (h2 : s.item_to_indirection_index[i']? = some j) : i = i' := by
  obtain ⟨e, he, hei⟩ := wf.backref i j h1
  obtain ⟨e', he', hei'⟩ := wf.backref i' j h2
  rw [he] at he'
  cases he'
  omega

/-- Canonical handles identify dense positions uniquely. -/
theorem handleAt_inj {T : Type} {s : SlotMap T} (wf : ArenaWF s)
    {i i' : Nat} {h : SlotMapHandle} (h1 : handleAt s i = some h)
    (h2 : handleAt s i' = some h) : i = i' := by
  obtain ⟨e, hj, -, -⟩ := handleAt_elim h1
  obtain ⟨e', hj', -, -⟩ := handleAt_elim h2
  exact i2i_inj wf hj hj'

/-- A live, generation-current handle is the canonical handle of the dense
position its entry points to. -/
theorem live_handleAt {T : Type} {s : SlotMap T} (wf : ArenaWF s)
    {h : SlotMapHandle} {e : Entry}
    (hm : h.indirection_index ∈ s.item_to_indirection_index)
    (he : s.indirection_indices[h.indirection_index]? = some e)
    (hg : e.generation = h.generation) :
    handleAt s e.item_index = some h ∧
    s.item_to_indirection_index[e.item_index]? = some h.indirection_index ∧
    e.item_index < s.items.length := by
  obtain ⟨q, hq⟩ := List.getElem?_of_mem hm
  obtain ⟨e', he', hei'⟩ := wf.backref q h.indirection_index hq
  rw [he] at he'
  cases he'
  subst hei'
  have hqlt : e.item_index < s.item_to_indirection_index.length :=
    (List.getElem?_eq_some_iff.mp hq).1
  have hha := handleAt_intro hq he
  rw [hg] at hha
  exact ⟨hha, hq, wf.len_eq ▸ hqlt⟩

/-- Characterization of a successful `push`: dense storage and the
back-reference table are extended, the handle's slot entry gets the new
dense index and the handle's generation (strictly above any previous
generation of this slot), all other entries are untouched, and the free
stack either loses its top (which was the handle's slot) or is unchanged
(the slot is brand new). -/
theorem push_char {T : Type} {s : SlotMap T} {v : T} {h : SlotMapHandle}
    {s' : SlotMap T} (hp : SlotMap.push s v = some (h, s')) :
    s'.items = s.items ++ [v] ∧
    s'.item_to_indirection_index =
      s.item_to_indirection_index ++ [h.indirection_index] ∧
    s'.indirection_indices[h.indirection_index]? =
      some ⟨s.items.length, h.generation⟩ ∧
    (∀ j, j ≠ h.indirection_index →
      s'.indirection_indices[j]? = s.indirection_indices[j]?) ∧
    (∀ e, s.indirection_indices[h.indirection_index]? = some e →
      e.generation < h.generation) ∧
    (h.indirection_index ∈ s.free_indirection_indices ∨
      s.indirection_indices[h.indirection_index]? = none) ∧
    (s'.free_indirection_indices = s.free_indirection_indices.dropLast ∨
      s'.free_indirection_indices = s.free_indirection_indices) ∧
    (s.free_indirection_indices.Nodup →
      h.indirection_index ∉ s'.free_indirection_indices) ∧
    s.indirection_indices.length ≤ s'.indirection_indices.length := by
  unfold SlotMap.push SlotMap.new_handle_with_index at hp
  cases hfree : s.free_indirection_indices.getLast? with
  | none =>
    simp only [hfree] at hp
    obtain ⟨hh, hs⟩ := Prod.mk.injEq .. ▸ Option.some.injEq .. ▸ hp
    subst hh
    subst hs
    have hfe : s.free_indirection_indices = [] :=
      List.getLast?_eq_none_iff.mp hfree
    refine ⟨rfl, rfl, by simp [List.getElem?_concat_length], ?_, ?_, ?_, ?_, ?_, ?_⟩
    · intro j hj
      rcases Nat.lt_trichotomy j s.indirection_indices.length with hlt | heq | hgt
      · exact List.getElem?_append_left hlt
      · exact absurd heq hj
      · rw [List.getElem?_eq_none (by simpa using hgt),
          List.getElem?_eq_none (by omega)]
    · intro e he
      exact absurd ((List.getElem?_eq_some_iff.mp he).1) (by simp)
    · exact Or.inr (List.getElem?_eq_none (by simp))
    · exact Or.inr rfl
    · intro _
      simp [hfe]
    · simp
  | some k =>
    simp only [hfree] at hp
    cases hslot : s.indirection_indices[k]? with
    | none => simp [hslot] at hp
    | some slot =>
      simp only [hslot] at hp
      obtain ⟨hh, hs⟩ := Prod.mk.injEq .. ▸ Option.some.injEq .. ▸ hp
      subst hh
      subst hs
      have hk : k < s.indirection_indices.length :=
        (List.getElem?_eq_some_iff.mp hslot).1
      have hne : s.free_indirection_indices ≠ [] := by
        intro hcon
        rw [hcon] at hfree
        cases hfree
      have hkmem : k ∈ s.free_indirection_indices := by
        have := List.getLast?_eq_getLast s.free_indirection_indices hne
        rw [hfree] at this
        cases this
        exact List.getLast_mem hne
      refine ⟨rfl, rfl,
        by simpa using List.getElem?_set_self (by simpa using hk),
        fun j hj => List.getElem?_set_ne (fun hc => hj hc.symm), ?_, Or.inl hkmem,
        Or.inl rfl, ?_, by simp⟩
      · intro e he
        rw [hslot] at he
        cases he
        exact Nat.lt_succ_self _
      · intro hnd hmem
        have hsplit : s.free_indirection_indices.dropLast ++ [k] =
            s.free_indirection_indices := by
          have := List.getLast?_eq_getLast s.free_indirection_indices hne
          rw [hfree] at this
          cases this
          exact List.dropLast_concat_getLast hne
        rw [← hsplit] at hnd
        exact (List.disjoint_of_nodup_append hnd) hmem (by simp)

/-- The slot handed out by a successful `push` did not own a dense position
before the push. -/
theorem push_slot_was_dead {T : Type} {s : SlotMap T} {v : T}
    {h : SlotMapHandle} {s' : SlotMap T} (wf : ArenaWF s)
    (hp : SlotMap.push s v = some (h, s')) :
    h.indirection_index ∉ s.item_to_indirection_index := by
  obtain ⟨-, -, -, -, -, hdead, -, -, -⟩ := push_char hp
  cases hdead with
  | inl hfree => exact wf.free_dead _ hfree
  | inr hnone =>
    intro hmem
    obtain ⟨i, hi⟩ := List.getElem?_of_mem hmem
    obtain ⟨e, he, -⟩ := wf.backref i h.indirection_index hi
    rw [hnone] at he
    cases he

/-- `push` preserves arena well-formedness. -/
theorem WF_push {T : Type} {s : SlotMap T} {v : T} {h : SlotMapHandle}
    {s' : SlotMap T} (wf : ArenaWF s) (hp : SlotMap.push s v = some (h, s')) :
    ArenaWF s' := by
  obtain ⟨hitems, hi2i, hnewe, holde, hgen, hdead, hfree, hnotin, hlen⟩ :=
    push_char hp
  have hdead' := push_slot_was_dead wf hp
  constructor
  · rw [hitems, hi2i]
    simp [wf.len_eq]
  · intro i j hij
    rw [hi2i] at hij
    rcases Nat.lt_trichotomy i s.item_to_indirection_index.length with hlt | heq | hgt
    · rw [List.getElem?_append_left hlt] at hij
      have hj : j ≠ h.indirection_index := by
        intro hc
        subst hc
        exact hdead' (List.mem_iff_getElem?.mpr ⟨i, hij⟩)
      obtain ⟨e, he, hei⟩ := wf.backref i j hij
      exact ⟨e, by rw [holde j hj]; exact he, hei⟩
    · subst heq
      rw [List.getElem?_concat_length] at hij
      cases hij
      exact ⟨⟨s.items.length, h.generation⟩, hnewe, (wf.len_eq).symm⟩
    · rw [List.getElem?_eq_none (by simpa using hgt)] at hij
      cases hij
  · intro j hj
    have hj' : j ∈ s.free_indirection_indices := by
      cases hfree with
      | inl hdl => exact List.dropLast_subset _ (hdl ▸ hj)
      | inr heq => exact heq ▸ hj
    exact Nat.lt_of_lt_of_le (wf.free_lt j hj') hlen
  · intro j hj
    have hj' : j ∈ s.free_indirection_indices := by
      cases hfree with
      | inl hdl => exact List.dropLast_subset _ (hdl ▸ hj)
      | inr heq => exact heq ▸ hj
    rw [hi2i]
    intro hmem
    rcases List.mem_append.mp hmem with hm | hm
    · exact wf.free_dead j hj' hm
    · have : j = h.indirection_index := by simpa using hm
      subst this
      exact (hnotin wf.free_nodup) hj
  · cases hfree with
    | inl hdl => rw [hdl]; exact wf.free_nodup.sublist (List.dropLast_sublist _)
    | inr heq => rw [heq]; exact wf.free_nodup

/-- `push` does not change the canonical handle of any existing dense
position. -/
theorem handleAt_push_old {T : Type} {s : SlotMap T} {v : T}
    {h : SlotMapHandle} {s' : SlotMap T} (wf : ArenaWF s)
    (hp : SlotMap.push s v = some (h, s')) :
    ∀ i, i < s.items.length → handleAt s' i = handleAt s i := by
  obtain ⟨hitems, hi2i, hnewe, holde, -, -, -, -, -⟩ := push_char hp
  have hdead' := push_slot_was_dead wf hp
  intro i hi
  have hi' : i < s.item_to_indirection_index.length := by
    rw [wf.len_eq]; exact hi
  cases hj : s.item_to_indirection_index[i]? with
  | none => exact absurd (List.getElem?_eq_none_iff.mp hj) (by omega)
  | some j =>
    have hjne : j ≠ h.indirection_index := by
      intro hc
      subst hc
      exact hdead' (List.mem_iff_getElem?.mpr ⟨i, hj⟩)
    obtain ⟨e, he, -⟩ := wf.backref i j hj
    have h2 : s'.item_to_indirection_index[i]? = some j := by
      rw [hi2i, List.getElem?_append_left hi']
      exact hj
    have h3 : s'.indirection_indices[j]? = some e := by
      rw [holde j hjne]
      exact he
    rw [handleAt_intro h2 h3, handleAt_intro hj he]

/-- After `push`, the new dense position's canonical handle is exactly the
returned handle. -/
theorem handleAt_push_new {T : Type} {s : SlotMap T} {v : T}
    {h : SlotMapHandle} {s' : SlotMap T} (wf : ArenaWF s)
    (hp : SlotMap.push s v = some (h, s')) :
    handleAt s' (s.items.length) = some h := by
  obtain ⟨hitems, hi2i, hnewe, -, -, -, -, -, -⟩ := push_char hp
  have h2 : s'.item_to_indirection_index[s.items.length]? =
      some h.indirection_index := by
    rw [hi2i, ← wf.len_eq, List.getElem?_concat_length]
  exact handleAt_intro h2 hnewe

/-- `push` preserves the sanity of any previously sane stored handle. -/
theorem LinkOK_push {T : Type} {s : SlotMap T} {v : T} {h : SlotMapHandle}
    {s' : SlotMap T} (hp : SlotMap.push s v = some (h, s'))
    {h' : SlotMapHandle} (hok : LinkOK s h') : LinkOK s' h' := by
  obtain ⟨-, hi2i, hnewe, holde, hgen, -, -, -, -⟩ := push_char hp
  obtain ⟨e, he, hle, hcond⟩ := hok
  by_cases hidx : h'.indirection_index = h.indirection_index
  · refine ⟨⟨s.items.length, h.generation⟩, ?_, ?_, ?_⟩
    · rw [hidx]
      exact hnewe
    · have := hgen e (hidx ▸ he)
      have hg : (⟨s.items.length, h.generation⟩ : Entry).generation =
        h.generation := rfl
      omega
    · intro hq
      have hq' : h'.generation = h.generation := hq
      have := hgen e (hidx ▸ he)
      omega
  · refine ⟨e, by rw [holde _ hidx]; exact he, hle, ?_⟩
    intro hq
    rw [hi2i]
    exact List.mem_append.mpr (Or.inl (hcond hq))

/-- No previously sane stored handle can equal the handle returned by a
later `push` (its generation is strictly newer). -/
theorem LinkOK_ne_push_handle {T : Type} {s : SlotMap T} {v : T}
    {h : SlotMapHandle} {s' : SlotMap T}
    (hp : SlotMap.push s v = some (h, s'))
    {h' : SlotMapHandle} (hok : LinkOK s h') : h' ≠ h := by
  obtain ⟨-, -, -, -, hgen, -, -, -, -⟩ := push_char hp
  obtain ⟨e, he, hle, -⟩ := hok
  intro hc
  subst hc
  have := hgen e he
  omega

/-- Characterization of a successful `modifyNode` (a write through
`get_mut(..).unwrap()`): the handle's entry exists, is generation-current,
its dense position holds a node, and only that dense position changes. -/
theorem modifyNode_char {T : Type} {s : SlotMap (Node T)} {p : SlotMapHandle}
    {f : Node T → Node T} {s' : SlotMap (Node T)}
    (hm : modifyNode s p f = some s') :
    ∃ e n, s.indirection_indices[p.indirection_index]? = some e ∧
      e.generation = p.generation ∧
      s.items[e.item_index]? = some n ∧
      s' = { s with items := s.items.set e.item_index (f n) } := by
  cases he : s.indirection_indices[p.indirection_index]? with
  | none => simp [modifyNode, he] at hm
  | some e =>
    by_cases hg : e.generation = p.generation
    · cases hn : s.items[e.item_index]? with
      | none => simp [modifyNode, he, hg, hn] at hm
      | some n =>
        simp only [modifyNode, he, hg, hn, ne_eq, not_true_eq_false, if_false,
          ite_false, Option.some.injEq] at hm
        exact ⟨e, n, rfl, hg, hn, hm.symm⟩
    · simp [modifyNode, he, hg] at hm

/-- Setting one dense position preserves arena well-formedness. -/
theorem WF_set_items {T : Type} {s : SlotMap T} (wf : ArenaWF s)
    (k : Nat) (x : T) : ArenaWF { s with items := s.items.set k x } := by
  constructor
  · simpa using wf.len_eq
  · exact wf.backref
  · exact wf.free_lt
  · exact wf.free_dead
  · exact wf.free_nodup

/-- Setting one dense position changes no canonical handle. -/
theorem handleAt_set_items {T : Type} (s : SlotMap T) (k : Nat) (x : T)
    (i : Nat) : handleAt { s with items := s.items.set k x } i = handleAt s i :=
  rfl

/-- A generation-current handle of a live slot, under well-formedness:
its entry's dense position is in range, backed by the slot, and the
canonical handle there is the handle itself. -/
theorem live_gen_current_pos {T : Type} {s : SlotMap T} (wf : ArenaWF s)
    {p : SlotMapHandle} {e : Entry}
    (he : s.indirection_indices[p.indirection_index]? = some e)
    (hg : e.generation = p.generation)
    (hm : p.indirection_index ∈ s.item_to_indirection_index) :
    handleAt s e.item_index = some p ∧
    s.item_to_indirection_index[e.item_index]? = some p.indirection_index ∧
    e.item_index < s.items.length :=
  live_handleAt wf hm he hg

/-- Positional characterization of `swap_remove`: the removed element is
the one at `k`, and the resulting list keeps every position except that the
old last element now sits at `k` and the length dropped by one. -/
theorem swapRemove_char {A : Type} {l : List A} {k : Nat} {x : A}
    {l' : List A} (hsw : swapRemove l k = some (x, l')) :
    l[k]? = some x ∧
    ∀ i, l'[i]? = if i < l.length - 1 then
      (if i = k then l[l.length - 1]? else l[i]?) else none := by
  cases hk : l[k]? with
  | none => simp [swapRemove, hk] at hsw
  | some x0 =>
    cases hlast : l.getLast? with
    | none => simp [swapRemove, hk, hlast] at hsw
    | some lastv =>
      simp only [swapRemove, hk, hlast, Option.some.injEq, Prod.mk.injEq] at hsw
      obtain ⟨hx, hl'⟩ := hsw
      subst hx
      subst hl'
      refine ⟨rfl, ?_⟩
      intro i
      rw [List.getElem?_dropLast]
      simp only [List.length_set]
      have hkl : k < l.length := (List.getElem?_eq_some_iff.mp hk).1
      have hlg : l[l.length - 1]? = some lastv := by
        rw [← List.getLast?_eq_getElem?]
        exact hlast
      by_cases hi : i < l.length - 1
      · rw [if_pos hi, if_pos hi, List.getElem?_set]
        by_cases hik : k = i
        · subst hik
          rw [if_pos rfl, if_pos hkl, if_pos rfl, hlg]
        · rw [if_neg hik, if_neg (fun hc => hik hc.symm)]
      · rw [if_neg hi, if_neg hi]

/-- Characterization of a successful `remove` of a live handle under arena
well-formedness: explicit positional description of all four vectors of the
resulting state. -/
theorem remove_char {T : Type} {s : SlotMap T} {h : SlotMapHandle} {t : T}
    {s' : SlotMap T} (wf : ArenaWF s)
    (hlive : h.indirection_index ∈ s.item_to_indirection_index)
    (hr : SlotMap.remove s h = some (some t, s')) :
    ∃ e lastIdx,
      s.indirection_indices[h.indirection_index]? = some e ∧
      e.generation = h.generation ∧
      s.item_to_indirection_index[e.item_index]? = some h.indirection_index ∧
      e.item_index < s.items.length ∧
      s.item_to_indirection_index[s.items.length - 1]? = some lastIdx ∧
      s.items[e.item_index]? = some t ∧
      (∀ i, s'.items[i]? = if i < s.items.length - 1 then
        (if i = e.item_index then s.items[s.items.length - 1]? else s.items[i]?)
        else none) ∧
      (∀ i, s'.item_to_indirection_index[i]? = if i < s.items.length - 1 then
        (if i = e.item_index then some lastIdx
         else s.item_to_indirection_index[i]?) else none) ∧
      s'.indirection_indices[h.indirection_index]? =
        some ⟨e.item_index, e.generation + 1⟩ ∧
      (lastIdx ≠ h.indirection_index →
        ∀ le, s.indirection_indices[lastIdx]? = some le →
          s'.indirection_indices[lastIdx]? = some ⟨e.item_index, le.generation⟩) ∧
      (∀ j, j ≠ h.indirection_index → j ≠ lastIdx →
        s'.indirection_indices[j]? = s.indirection_indices[j]?) ∧
      s'.free_indirection_indices =
        s.free_indirection_indices ++ [h.indirection_index] := by
  obtain ⟨e, lastIdx, lastEntry, items', b, backrefs', he, hgen, hlast, hle,
    hsw1, hsw2, hs⟩ := remove_success hr
  obtain ⟨hha, hback, hkx⟩ := live_handleAt wf hlive he hgen.symm
  have hlen : s.item_to_indirection_index.length = s.items.length := wf.len_eq
  have hlast' : s.item_to_indirection_index[s.items.length - 1]? = some lastIdx := by
    rw [← hlen]
    rw [List.getLast?_eq_getElem?] at hlast
    exact hlast
  obtain ⟨ht, hitems'⟩ := swapRemove_char hsw1
  obtain ⟨-, hback'⟩ := swapRemove_char hsw2
  have hhlt : h.indirection_index < s.indirection_indices.length :=
    (List.getElem?_eq_some_iff.mp he).1
  refine ⟨e, lastIdx, he, hgen.symm, hback, hkx, hlast', ht, ?_, ?_, ?_, ?_, ?_, ?_⟩
  · intro i
    rw [hs]
    exact hitems' i
  · intro i
    rw [hs]
    dsimp only
    rw [hback' i, hlen]
    by_cases hi : i < s.items.length - 1
    · rw [if_pos hi, if_pos hi]
      by_cases hik : i = e.item_index
      · rw [if_pos hik, if_pos hik]
        exact hlast'
      · rw [if_neg hik, if_neg hik]
    · rw [if_neg hi, if_neg hi]
  · rw [hs]
    dsimp only
    by_cases hcase : lastIdx = h.indirection_index
    · subst hcase
      rw [List.getElem?_set_self (by simpa using hhlt)] at hle
      cases hle
      rw [List.getElem?_set_self (by simpa using hhlt)]
    · rw [List.getElem?_set_ne hcase,
        List.getElem?_set_self (by simpa using hhlt)]
  · intro hne le hles
    rw [hs]
    dsimp only
    have hllt : lastIdx < s.indirection_indices.length :=
      (List.getElem?_eq_some_iff.mp hles).1
    rw [List.getElem?_set_self (by simpa using hllt)]
    rw [List.getElem?_set_ne (fun hc => hne hc.symm)] at hle
    rw [hles] at hle
    cases hle
    rfl
  · intro j hj1 hj2
    rw [hs]
    dsimp only
    rw [List.getElem?_set_ne (fun hc => hj2 hc.symm),
      List.getElem?_set_ne (fun hc => hj1 hc.symm)]
  · rw [hs]

/-- `swap_remove` shortens the list by one. -/
theorem swapRemove_length {A : Type} {l : List A} {k : Nat} {x : A}
    {l' : List A} (hsw : swapRemove l k = some (x, l')) :
    l'.length = l.length - 1 := by
  cases hk : l[k]? with
  | none => simp [swapRemove, hk] at hsw
  | some x0 =>
    cases hlast : l.getLast? with
    | none => simp [swapRemove, hk, hlast] at hsw
    | some lastv =>
      simp only [swapRemove, hk, hlast, Option.some.injEq, Prod.mk.injEq] at hsw
      rw [← hsw.2]
      simp

/-- A successful `remove` shrinks dense storage and the back-reference
table by one and keeps the indirection table's length. -/
theorem remove_lengths {T : Type} {s : SlotMap T} {h : SlotMapHandle}
    {t : T} {s' : SlotMap T} (hr : SlotMap.remove s h = some (some t, s')) :
    s'.items.length = s.items.length - 1 ∧
    s'.item_to_indirection_index.length =
      s.item_to_indirection_index.length - 1 ∧
    s'.indirection_indices.length = s.indirection_indices.length := by
  obtain ⟨e, lastIdx, lastEntry, items', b, backrefs', he, hgen, hlast, hle,
    hsw1, hsw2, hs⟩ := remove_success hr
  subst hs
  exact ⟨swapRemove_length hsw1, swapRemove_length hsw2, by simp⟩

/-- The slot freed by a successful `remove` of a live handle owns no dense
position afterwards. -/
theorem remove_slot_dead {T : Type} {s : SlotMap T} {h : SlotMapHandle}
    {t : T} {s' : SlotMap T} (wf : ArenaWF s)
    (hlive : h.indirection_index ∈ s.item_to_indirection_index)
    (hr : SlotMap.remove s h = some (some t, s')) :
    h.indirection_index ∉ s'.item_to_indirection_index := by
  obtain ⟨e, lastIdx, he, hgen, hback, hkx, hlast', ht, hitems, hi2i, heh,
    hel, heo, hfree⟩ := remove_char wf hlive hr
  intro hmem
  obtain ⟨i, hi⟩ := List.getElem?_of_mem hmem
  rw [hi2i i] at hi
  by_cases hlt : i < s.items.length - 1
  · rw [if_pos hlt] at hi
    by_cases hik : i = e.item_index
    · rw [if_pos hik] at hi
      cases hi
      have : e.item_index = s.items.length - 1 :=
        i2i_inj wf hback hlast'
      omega
    · rw [if_neg hik] at hi
      exact hik (i2i_inj wf hi hback)
  · rw [if_neg hlt] at hi
    cases hi

/-- `remove` of a live handle preserves arena well-formedness. -/
theorem WF_remove {T : Type} {s : SlotMap T} {h : SlotMapHandle} {t : T}
    {s' : SlotMap T} (wf : ArenaWF s)
    (hlive : h.indirection_index ∈ s.item_to_indirection_index)
    (hr : SlotMap.remove s h = some (some t, s')) : ArenaWF s' := by
  obtain ⟨e, lastIdx, he, hgen, hback, hkx, hlast', ht, hitems, hi2i, heh,
    hel, heo, hfree⟩ := remove_char wf hlive hr
  obtain ⟨hleni, hlenb, hlene⟩ := remove_lengths hr
  have hdead := remove_slot_dead wf hlive hr
  have hlen := wf.len_eq
  constructor
  · omega
  · intro i j hij
    rw [hi2i i] at hij
    by_cases hlt : i < s.items.length - 1
    · rw [if_pos hlt] at hij
      by_cases hik : i = e.item_index
      · rw [if_pos hik] at hij
        cases hij
        have hlne : lastIdx ≠ h.indirection_index := by
          intro hc
          subst hc
          have : e.item_index = s.items.length - 1 := i2i_inj wf hback hlast'
          omega
        obtain ⟨le, hles, -⟩ := wf.backref (s.items.length - 1) lastIdx hlast'
        exact ⟨⟨e.item_index, le.generation⟩, hel hlne le hles, hik.symm⟩
      · rw [if_neg hik] at hij
        have hjh : j ≠ h.indirection_index := by
          intro hc
          subst hc
          exact hik (i2i_inj wf hij hback)
        have hjl : j ≠ lastIdx := by
          intro hc
          subst hc
          have : i = s.items.length - 1 := i2i_inj wf hij hlast'
          omega
        obtain ⟨e0, he0, hei0⟩ := wf.backref i j hij
        exact ⟨e0, by rw [heo j hjh hjl]; exact he0, hei0⟩
    · rw [if_neg hlt] at hij
      cases hij
  · intro j hj
    rw [hfree] at hj
    rcases List.mem_append.mp hj with hm | hm
    · have := wf.free_lt j hm
      omega
    · have : j = h.indirection_index := by simpa using hm
      subst this
      have := (List.getElem?_eq_some_iff.mp he).1
      omega
  · intro j hj
    rw [hfree] at hj
    rcases List.mem_append.mp hj with hm | hm
    · intro hmem
      obtain ⟨i, hi⟩ := List.getElem?_of_mem hmem
      rw [hi2i i] at hi
      by_cases hlt : i < s.items.length - 1
      · rw [if_pos hlt] at hi
        by_cases hik : i = e.item_index
        · rw [if_pos hik] at hi
          cases hi
          exact wf.free_dead lastIdx hm
            (List.mem_iff_getElem?.mpr ⟨s.items.length - 1, hlast'⟩)
        · rw [if_neg hik] at hi
          exact wf.free_dead j hm (List.mem_iff_getElem?.mpr ⟨i, hi⟩)
      · rw [if_neg hlt] at hi
        cases hi
    · have : j = h.indirection_index := by simpa using hm
      subst this
      exact hdead
  · rw [hfree]
    rw [List.nodup_append]
    refine ⟨wf.free_nodup, List.nodup_singleton _, ?_⟩
    intro a ha hb
    have : a = h.indirection_index := by simpa using hb
    subst this
    exact wf.free_dead _ ha hlive

/-- After a `remove` of a live handle, each surviving dense position keeps
its canonical handle, with the old last position relocated to the vacated
slot. -/
theorem handleAt_remove {T : Type} {s : SlotMap T} {h : SlotMapHandle}
    {t : T} {s' : SlotMap T} (wf : ArenaWF s)
    (hlive : h.indirection_index ∈ s.item_to_indirection_index)
    (hr : SlotMap.remove s h = some (some t, s')) :
    ∀ i, i < s.items.length - 1 →
      ∃ e, s.indirection_indices[h.indirection_index]? = some e ∧
      ((i = e.item_index → handleAt s' i = handleAt s (s.items.length - 1)) ∧
       (i ≠ e.item_index → handleAt s' i = handleAt s i)) := by
  obtain ⟨e, lastIdx, he, hgen, hback, hkx, hlast', ht, hitems, hi2i, heh,
    hel, heo, hfree⟩ := remove_char wf hlive hr
  have hlen := wf.len_eq
  intro i hi
  refine ⟨e, he, ?_, ?_⟩
  · intro hik
    have hlne : lastIdx ≠ h.indirection_index := by
      intro hc
      subst hc
      have : e.item_index = s.items.length - 1 := i2i_inj wf hback hlast'
      omega
    obtain ⟨le, hles, -⟩ := wf.backref (s.items.length - 1) lastIdx hlast'
    have h1 : s'.item_to_indirection_index[i]? = some lastIdx := by
      rw [hi2i i, if_pos hi, if_pos hik]
    have h2 : s'.indirection_indices[lastIdx]? =
        some ⟨e.item_index, le.generation⟩ := hel hlne le hles
    rw [handleAt_intro h1 h2, handleAt_intro hlast' hles]
  · intro hik
    have hii : s.item_to_indirection_index[i]? =
        s'.item_to_indirection_index[i]? := by
      rw [hi2i i, if_pos hi, if_neg hik]
    cases hj : s.item_to_indirection_index[i]? with
    | none =>
      exact absurd (List.getElem?_eq_none_iff.mp hj) (by omega)
    | some j =>
      have hjh : j ≠ h.indirection_index := by
        intro hc
        subst hc
        exact hik (i2i_inj wf hj hback)
      have hjl : j ≠ lastIdx := by
        intro hc
        subst hc
        have : i = s.items.length - 1 := i2i_inj wf hj hlast'
        omega
      obtain ⟨e0, he0, -⟩ := wf.backref i j hj
      have h3 : s'.indirection_indices[j]? = some e0 := by
        rw [heo j hjh hjl]
        exact he0
      rw [handleAt_intro (hii ▸ hj) h3, handleAt_intro hj he0]

/-- After a `remove`, no surviving position carries the removed handle. -/
theorem handleAt_remove_ne {T : Type} {s : SlotMap T} {h : SlotMapHandle}
    {t : T} {s' : SlotMap T} (wf : ArenaWF s)
    (hlive : h.indirection_index ∈ s.item_to_indirection_index)
    (hr : SlotMap.remove s h = some (some t, s')) :
    ∀ i h', handleAt s' i = some h' →
      h'.indirection_index ≠ h.indirection_index := by
  intro i h' hha hc
  obtain ⟨e', hj', -, -⟩ := handleAt_elim hha
  rw [hc] at hj'
  exact remove_slot_dead wf hlive hr (List.mem_iff_getElem?.mpr ⟨i, hj'⟩)

/-- `remove` of a live handle preserves the sanity of any stored handle. -/
theorem LinkOK_remove {T : Type} {s : SlotMap T} {h : SlotMapHandle} {t : T}
    {s' : SlotMap T} (wf : ArenaWF s)
    (hlive : h.indirection_index ∈ s.item_to_indirection_index)
    (hr : SlotMap.remove s h = some (some t, s'))
    {h' : SlotMapHandle} (hok : LinkOK s h') : LinkOK s' h' := by
  obtain ⟨e, lastIdx, he, hgen, hback, hkx, hlast', ht, hitems, hi2i, heh,
    hel, heo, hfree⟩ := remove_char wf hlive hr
  have hlen := wf.len_eq
  obtain ⟨e0, he0, hle0, hcond0⟩ := hok
  by_cases hidx : h'.indirection_index = h.indirection_index
  · rw [hidx] at he0
    rw [he] at he0
    cases he0
    refine ⟨⟨e.item_index, e.generation + 1⟩, ?_, ?_, ?_⟩
    · rw [hidx]
      exact heh
    · have hgg : (⟨e.item_index, e.generation + 1⟩ : Entry).generation =
        e.generation + 1 := rfl
      omega
    · intro hq
      have hq' : h'.generation = e.generation + 1 := hq
      omega
  · by_cases hlidx : h'.indirection_index = lastIdx
    · have hlne : lastIdx ≠ h.indirection_index := by
        rw [← hlidx]
        exact hidx
      have h2 : s'.indirection_indices[lastIdx]? =
          some ⟨e.item_index, e0.generation⟩ :=
        hel hlne e0 (hlidx ▸ he0)
      have hkxlt : e.item_index < s.items.length - 1 := by
        have h3 : e.item_index ≠ s.items.length - 1 := by
          intro hc
          rw [hc] at hback
          rw [hback] at hlast'
          cases hlast'
          exact hlne rfl
        omega
      refine ⟨⟨e.item_index, e0.generation⟩, by rw [hlidx]; exact h2, hle0, ?_⟩
      intro hq
      refine List.mem_iff_getElem?.mpr ⟨e.item_index, ?_⟩
      rw [hi2i, if_pos hkxlt, if_pos rfl, hlidx]
    · refine ⟨e0, by rw [heo _ hidx hlidx]; exact he0, hle0, ?_⟩
      intro hq
      have hmem := hcond0 hq
      obtain ⟨q, hq'⟩ := List.getElem?_of_mem hmem
      have hqkx : q ≠ e.item_index := by
        intro hc
        rw [hc, hback] at hq'
        exact hidx (Option.some.inj hq').symm
      have hqlast : q ≠ s.items.length - 1 := by
        intro hc
        rw [hc, hlast'] at hq'
        exact hlidx (Option.some.inj hq').symm
      have hqlt : q < s.items.length := by
        have := (List.getElem?_eq_some_iff.mp hq').1
        omega
      refine List.mem_iff_getElem?.mpr ⟨q, ?_⟩
      rw [hi2i, if_pos (by omega), if_neg hqkx]
      exact hq'

/-- Dense reads after a `push`. -/
theorem items_push {T : Type} {s : SlotMap T} {v : T} {h : SlotMapHandle}
    {s' : SlotMap T} (hp : SlotMap.push s v = some (h, s')) :
    (∀ i, i < s.items.length → s'.items[i]? = s.items[i]?) ∧
    s'.items[s.items.length]? = some v ∧
    (∀ i n, s'.items[i]? = some n → i < s.items.length + 1) := by
  obtain ⟨hitems, -, -, -, -, -, -, -, -⟩ := push_char hp
  rw [hitems]
  refine ⟨fun i hi => List.getElem?_append_left hi,
    List.getElem?_concat_length _ _, ?_⟩
  intro i n hn
  have := (List.getElem?_eq_some_iff.mp hn).1
  simpa using this

/-- `insert` with no predecessor preserves the full invariant. -/
theorem LLInv_insert_none {T : Type} {s : SlotMap (Node T)} {v : T}
    {hNew : SlotMapHandle} {s' : SlotMap (Node T)} (inv : LLInv s)
    (hins : LinkedListSlotMap.insert s none v = some (hNew, s')) :
    LLInv s' := by
  have hp : SlotMap.push s ⟨v, none, none⟩ = some (hNew, s') := hins
  obtain ⟨hold, hnew, hbound⟩ := items_push hp
  refine ⟨WF_push inv.wf hp, ?_, ?_⟩
  · intro i n hn
    have hilt := hbound i n hn
    by_cases hi : i < s.items.length
    · rw [hold i hi] at hn
      obtain ⟨h1, h2⟩ := inv.links i n hn
      exact ⟨fun hh hhh => LinkOK_push hp (h1 hh hhh),
        fun hh hhh => LinkOK_push hp (h2 hh hhh)⟩
    · have : i = s.items.length := by omega
      subst this
      rw [hnew] at hn
      cases hn
      exact ⟨fun hh hhh => (nomatch hhh), fun hh hhh => (nomatch hhh)⟩
  · intro i j hi hj ni nj hhi hni hhj hnj
    have hilt := hbound i ni hni
    have hjlt := hbound j nj hnj
    by_cases hip : i < s.items.length
    · rw [hold i hip] at hni
      by_cases hjp : j < s.items.length
      · rw [hold j hjp] at hnj
        rw [handleAt_push_old inv.wf hp i hip] at hhi
        rw [handleAt_push_old inv.wf hp j hjp] at hhj
        exact inv.mc i j hi hj ni nj hhi hni hhj hnj
      · have hj' : j = s.items.length := by omega
        subst hj'
        rw [handleAt_push_new inv.wf hp] at hhj
        cases hhj
        obtain ⟨hok1, hok2⟩ := inv.links i ni hni
        constructor
        · intro hc
          exact absurd rfl (LinkOK_ne_push_handle hp (hok1 _ hc))
        · intro hc
          exact absurd rfl (LinkOK_ne_push_handle hp (hok2 _ hc))
    · have hi' : i = s.items.length := by omega
      subst hi'
      rw [hnew] at hni
      cases hni
      exact ⟨fun hc => (nomatch hc), fun hc => (nomatch hc)⟩

/-- Destructor for a `get` that found a value. -/
theorem get_some_destruct {T : Type} {s : SlotMap T} {p : SlotMapHandle}
    {x : T} (hget : SlotMap.get s p = some (some x)) :
    ∃ e, s.indirection_indices[p.indirection_index]? = some e ∧
      e.generation = p.generation ∧ s.items[e.item_index]? = some x := by
  cases he : s.indirection_indices[p.indirection_index]? with
  | none => simp [SlotMap.get, he] at hget
  | some e =>
    by_cases hg : e.generation = p.generation
    · refine ⟨e, rfl, hg, ?_⟩
      simp only [SlotMap.get, he, hg, ne_eq, not_true_eq_false, if_false,
        ite_false, Option.some.injEq] at hget
      exact hget
    · simp [SlotMap.get, he, hg] at hget

/-- Destructor for a completed `insert` with a predecessor: the exact
sequence of arena steps it performs. -/
theorem llInsert_some_destruct {T : Type} {s : SlotMap (Node T)}
    {p : SlotMapHandle} {v : T} {hNew : SlotMapHandle} {s' : SlotMap (Node T)}
    (hins : LinkedListSlotMap.insert s (some p) v = some (hNew, s')) :
    ∃ pnode s1 s2,
      SlotMap.get s p = some (some pnode) ∧
      SlotMap.push s ⟨v, pnode.next, some p⟩ = some (hNew, s1) ∧
      modifyNode s1 p (fun n => { n with next := some hNew }) = some s2 ∧
      ((pnode.next = none ∧ s' = s2) ∨
       (∃ nx, pnode.next = some nx ∧
         modifyNode s2 nx (fun n => { n with previous := some hNew }) =
           some s')) := by
  cases hget : SlotMap.get s p with
  | none => simp [LinkedListSlotMap.insert, hget] at hins
  | some o =>
    cases o with
    | none => simp [LinkedListSlotMap.insert, hget] at hins
    | some pnode =>
      simp only [LinkedListSlotMap.insert, hget] at hins
      cases hpush : SlotMap.push s ⟨v, pnode.next, some p⟩ with
      | none => simp [hpush] at hins
      | some pr =>
        obtain ⟨hN, s1⟩ := pr
        simp only [hpush] at hins
        cases hm1 : modifyNode s1 p (fun n => { n with next := some hN }) with
        | none => simp [hm1] at hins
        | some s2 =>
          simp only [hm1] at hins
          cases hnxt : pnode.next with
          | none =>
            simp only [hnxt, Option.some.injEq, Prod.mk.injEq] at hins
            obtain ⟨hh, hs⟩ := hins
            subst hh
            subst hs
            exact ⟨pnode, s1, s2, rfl, hpush, hm1, Or.inl ⟨hnxt, rfl⟩⟩
          | some nx =>
            cases hm2 : modifyNode s2 nx
                (fun n => { n with previous := some hN }) with
            | none => simp [hnxt, hm2] at hins
            | some s3 =>
              simp only [hnxt, hm2, Option.some.injEq, Prod.mk.injEq] at hins
              obtain ⟨hh, hs⟩ := hins
              subst hh
              subst hs
              exact ⟨pnode, s1, s2, rfl, hpush, hm1,
                Or.inr ⟨nx, hnxt, hm2⟩⟩

set_option maxHeartbeats 1000000

/-- The handle returned by `push` is sane in the resulting map. -/
theorem LinkOK_pushed {T : Type} {s : SlotMap T} {v : T} {h : SlotMapHandle}
    {s2 : SlotMap T} (wf : ArenaWF s) (hp : SlotMap.push s v = some (h, s2)) :
    LinkOK s2 h := by
  obtain ⟨-, hi2i, hnewe, -, -, -, -, -, -⟩ := push_char hp
  refine ⟨⟨s.items.length, h.generation⟩, hnewe, Nat.le_refl _, ?_⟩
  intro hq
  rw [hi2i]
  simp

/-- Replacing dense storage by any same-length list keeps arena
well-formedness (no field other than `items` is involved). -/
theorem ArenaWF_items {T : Type} {s : SlotMap T} (wf : ArenaWF s)
    (l : List T) (hl : l.length = s.items.length) :
    ArenaWF { s with items := l } := by
  constructor
  · rw [hl]
    exact wf.len_eq
  · exact wf.backref
  · exact wf.free_lt
  · exact wf.free_dead
  · exact wf.free_nodup

theorem LLInv_insert_some {T : Type} {s : SlotMap (Node T)} {p : SlotMapHandle}
    {v : T} {hNew : SlotMapHandle} {s' : SlotMap (Node T)} (inv : LLInv s)
    (hlvp : liveHandle s p)
    (hins : LinkedListSlotMap.insert s (some p) v = some (hNew, s')) :
    LLInv s' := by
  obtain ⟨pnode, s1, s2, hget, hpush, hm1, hrest⟩ := llInsert_some_destruct hins
  obtain ⟨pe, hpe, hpeg, hpn⟩ := get_some_destruct hget
  obtain ⟨hhap, hbackp, hkp⟩ := live_handleAt inv.wf hlvp hpe hpeg
  have wf1 : ArenaWF s1 := WF_push inv.wf hpush
  obtain ⟨hold1, hnew1, hbound1⟩ := items_push hpush
  have hdead := push_slot_was_dead inv.wf hpush
  have hpne : p.indirection_index ≠ hNew.indirection_index := fun hc =>
    hdead (hc ▸ hlvp)
  obtain ⟨hitems1, hi2i1, hnewe1, holde, hgenlt, -, -, -, -⟩ := push_char hpush
  obtain ⟨e1, n1, he1, he1g, hn1, hs2⟩ := modifyNode_char hm1
  have he1' : pe = e1 := by
    rw [holde _ hpne, hpe] at he1
    exact Option.some.inj he1
  subst he1'
  have hn1' : pnode = n1 := by
    rw [hold1 _ hkp, hpn] at hn1
    exact Option.some.inj hn1
  subst hn1'
  -- canonical handles
  have hH2 : ∀ i, i < s.items.length → handleAt s1 i = handleAt s i :=
    handleAt_push_old inv.wf hpush
  have hH3 : handleAt s1 s.items.length = some hNew :=
    handleAt_push_new inv.wf hpush
  have hbnd : ∀ (i : Nat) (h' : SlotMapHandle), handleAt s1 i = some h' →
      i < s.items.length + 1 := by
    intro i h' hh
    obtain ⟨e', hj', -, -⟩ := handleAt_elim hh
    have := (List.getElem?_eq_some_iff.mp hj').1
    rw [hi2i1] at this
    simp only [List.length_append, List.length_singleton] at this
    have := inv.wf.len_eq
    omega
  have hgetH : ∀ (j : Nat) (q : SlotMapHandle), handleAt s1 j = some q →
      q ≠ hNew → j < s.items.length ∧ handleAt s j = some q := by
    intro j q hh hne
    have hjb := hbnd j q hh
    by_cases hjl : j < s.items.length
    · exact ⟨hjl, by rw [← hH2 j hjl]; exact hh⟩
    · have : j = s.items.length := by omega
      subst this
      rw [hH3] at hh
      cases hh
      exact absurd rfl hne
  have hnodeAt : ∀ (j : Nat) (q : SlotMapHandle), handleAt s j = some q →
      ∃ m, s.items[j]? = some m := by
    intro j q hh
    obtain ⟨ee, hje, -⟩ := handleAt_elim hh
    have hjlt := (List.getElem?_eq_some_iff.mp hje).1
    cases hje2 : s.items[j]? with
    | none =>
      have := List.getElem?_eq_none_iff.mp hje2
      have := inv.wf.len_eq
      omega
    | some m => exact ⟨m, rfl⟩
  have hLok : ∀ (i : Nat) (n : Node T) (h' : SlotMapHandle),
      s.items[i]? = some n → (n.next = some h' ∨ n.previous = some h') →
      LinkOK s h' := by
    intro i n h' hn hl
    obtain ⟨l1, l2⟩ := inv.links i n hn
    cases hl with
    | inl hh => exact l1 h' hh
    | inr hh => exact l2 h' hh
  have hLne : ∀ (i : Nat) (n : Node T) (h' : SlotMapHandle),
      s.items[i]? = some n → (n.next = some h' ∨ n.previous = some h') →
      h' ≠ hNew := by
    intro i n h' hn hl
    exact LinkOK_ne_push_handle hpush (hLok i n h' hn hl)
  have hOKp : LinkOK s p := ⟨pe, hpe, Nat.le_of_eq hpeg.symm, fun _ => hlvp⟩
  have hlen1 : s1.items.length = s.items.length + 1 := by
    rw [hitems1]
    simp
  have hkp1 : pe.item_index < s1.items.length := by omega
  rcases hrest with ⟨hnxt, hseq⟩ | ⟨nx, hnxt, hm2⟩
  · -- no old successor: the final state is s2
    subst hseq
    subst hs2
    have hdecode : ∀ (i : Nat) (n : Node T),
        (s1.items.set pe.item_index { pnode with next := some hNew })[i]? =
          some n →
        (i = pe.item_index ∧ n = { pnode with next := some hNew }) ∨
        (i ≠ pe.item_index ∧ i < s.items.length ∧ s.items[i]? = some n) ∨
        (i = s.items.length ∧ n = ⟨v, pnode.next, some p⟩) := by
      intro i n hn
      by_cases hik : i = pe.item_index
      · subst hik
        rw [List.getElem?_set_self (by simpa using hkp1)] at hn
        cases hn
        exact Or.inl ⟨rfl, rfl⟩
      · rw [List.getElem?_set_ne (fun hc => hik hc.symm)] at hn
        have hb := hbound1 _ _ hn
        by_cases hil : i < s.items.length
        · rw [hold1 i hil] at hn
          exact Or.inr (Or.inl ⟨hik, hil, hn⟩)
        · have : i = s.items.length := by omega
          subst this
          rw [hnew1] at hn
          cases hn
          exact Or.inr (Or.inr ⟨rfl, rfl⟩)
    have hLcast : ∀ (h2 : SlotMapHandle) (its : List (Node T)),
        LinkOK s1 h2 → LinkOK { s1 with items := its } h2 :=
      fun h2 its hk => hk
    refine ⟨WF_set_items wf1 _ _, ?_, ?_⟩
    · intro i n hn
      rcases hdecode i n hn with ⟨hik, hnn⟩ | ⟨hik, hilt, hiold⟩ | ⟨hik, hnn⟩
      · subst hnn
        constructor
        · intro hh hc
          cases hc
          exact hLcast _ _ (LinkOK_pushed inv.wf hpush)
        · intro hh hc
          exact hLcast _ _ (LinkOK_push hpush (hLok _ _ _ hpn (Or.inr hc)))
      · constructor
        · intro hh hc
          exact hLcast _ _ (LinkOK_push hpush (hLok _ _ _ hiold (Or.inl hc)))
        · intro hh hc
          exact hLcast _ _ (LinkOK_push hpush (hLok _ _ _ hiold (Or.inr hc)))
      · subst hnn
        constructor
        · intro hh hc
          exact hLcast _ _ (LinkOK_push hpush (hLok _ _ _ hpn (Or.inl hc)))
        · intro hh hc
          cases hc
          exact hLcast _ _ (LinkOK_push hpush hOKp)
    · intro i j hi hj ni nj hhi hni hhj hnj
      rw [handleAt_set_items] at hhi hhj
      constructor
      · intro hlink
        rcases hdecode i ni hni with ⟨hik, hni2⟩ | ⟨hik, hilt, hiold⟩ |
          ⟨hik, hni2⟩
        · subst hni2
          cases hlink
          have hjlen : j = s.items.length := handleAt_inj wf1 hhj hH3
          subst hjlen
          rcases hdecode _ nj hnj with ⟨hjk, hjn⟩ | ⟨hjk, hjlt, hjold⟩ |
            ⟨hjk, hjn⟩
          · omega
          · omega
          · subst hjn
            subst hik
            rw [hH2 _ hkp, hhap] at hhi
            cases hhi
            rfl
        · have hnej : hj ≠ hNew := hLne _ _ _ hiold (Or.inl hlink)
          obtain ⟨hjlt, hhj2⟩ := hgetH j hj hhj hnej
          rw [hH2 i hilt] at hhi
          obtain ⟨mj, hmj⟩ := hnodeAt j hj hhj2
          have hmc := (inv.mc i j hi hj ni mj hhi hiold hhj2 hmj).1 hlink
          rcases hdecode _ nj hnj with ⟨hjk, hjn⟩ | ⟨hjk, hjlt2, hjold⟩ |
            ⟨hjk, hjn⟩
          · subst hjk
            subst hjn
            rw [hpn] at hmj
            cases hmj
            exact hmc
          · rw [hjold] at hmj
            cases hmj
            exact hmc
          · omega
        · subst hni2
          rw [hnxt] at hlink
          cases hlink
      · intro hlink
        rcases hdecode i ni hni with ⟨hik, hni2⟩ | ⟨hik, hilt, hiold⟩ |
          ⟨hik, hni2⟩
        · -- predecessor node: previous unchanged
          subst hni2
          have hlink2 : pnode.previous = some hj := hlink
          have hnej : hj ≠ hNew := hLne _ _ _ hpn (Or.inr hlink2)
          obtain ⟨hjlt, hhj2⟩ := hgetH j hj hhj hnej
          obtain ⟨mj, hmj⟩ := hnodeAt j hj hhj2
          subst hik
          rw [hH2 _ hkp] at hhi
          have hmc := (inv.mc _ j hi hj pnode mj hhi hpn hhj2 hmj).2 hlink2
          rcases hdecode _ nj hnj with ⟨hjk, hjn⟩ | ⟨hjk, hjlt2, hjold⟩ |
            ⟨hjk, hjn⟩
          · -- target is the predecessor itself: would need pnode.next = hi,
            -- but pnode.next is none here
            subst hjk
            subst hjn
            rw [hpn] at hmj
            cases hmj
            rw [hnxt] at hmc
            cases hmc
          · rw [hjold] at hmj
            cases hmj
            exact hmc
          · omega
        · have hnej : hj ≠ hNew := hLne _ _ _ hiold (Or.inr hlink)
          obtain ⟨hjlt, hhj2⟩ := hgetH j hj hhj hnej
          rw [hH2 i hilt] at hhi
          obtain ⟨mj, hmj⟩ := hnodeAt j hj hhj2
          have hmc := (inv.mc i j hi hj ni mj hhi hiold hhj2 hmj).2 hlink
          rcases hdecode _ nj hnj with ⟨hjk, hjn⟩ | ⟨hjk, hjlt2, hjold⟩ |
            ⟨hjk, hjn⟩
          · subst hjk
            subst hjn
            rw [hpn] at hmj
            cases hmj
            rw [hnxt] at hmc
            cases hmc
          · rw [hjold] at hmj
            cases hmj
            exact hmc
          · omega
        · -- new node: previous = p, so the target is the predecessor
          subst hni2
          have hlink2 : some p = some hj := hlink
          cases hlink2
          have hhp1 : handleAt s1 pe.item_index = some p := by
            rw [hH2 _ hkp]
            exact hhap
          have hjkp : j = pe.item_index := handleAt_inj wf1 hhj hhp1
          subst hjkp
          rcases hdecode _ nj hnj with ⟨hjk, hjn⟩ | ⟨hjk, hjlt2, hjold⟩ |
            ⟨hjk, hjn⟩
          · subst hjn
            subst hik
            rw [hH3] at hhi
            cases hhi
            rfl
          · omega
          · omega
  · -- an old successor nx exists and its back-link is patched
    subst hs2
    obtain ⟨e2, n2, he2, he2g, hn2, hs3⟩ := modifyNode_char hm2
    dsimp only at he2 hn2 hs3
    have hoknx : LinkOK s nx := hLok _ _ _ hpn (Or.inl hnxt)
    obtain ⟨en, hen, hnle, hncond⟩ := hoknx
    have hnxne : nx.indirection_index ≠ hNew.indirection_index := by
      intro hc
      rw [hc, hnewe1] at he2
      cases he2
      have hlt := hgenlt en (by rw [← hc]; exact hen)
      have hgg : (⟨s.items.length, hNew.generation⟩ : Entry).generation =
        hNew.generation := rfl
      omega
    have he2en : en = e2 := by
      rw [holde _ hnxne, hen] at he2
      exact Option.some.inj he2
    subst he2en
    have hnxmem : nx.indirection_index ∈ s.item_to_indirection_index :=
      hncond he2g.symm
    obtain ⟨hhanx, hbacknx, hknx⟩ := live_handleAt inv.wf hnxmem hen he2g
    have hknx1 : en.item_index < s1.items.length := by omega
    by_cases hkk : en.item_index = pe.item_index
    · -- the predecessor is its own successor (one-node cycle): nx = p
      have hpnx : nx.indirection_index = p.indirection_index := by
        rw [hkk] at hbacknx
        rw [hbackp] at hbacknx
        exact (Option.some.inj hbacknx).symm
      have henpe : en = pe := by
        rw [hpnx, hpe] at hen
        exact (Option.some.inj hen).symm
      have hnxp : nx = p := by
        cases nx with
        | mk a b =>
          cases p with
          | mk c d =>
            simp only [SlotMapHandle.mk.injEq]
            constructor
            · exact hpnx
            · have h1 : en.generation = b := he2g
              have h2 : pe.generation = d := hpeg
              rw [henpe] at h1
              omega
      have hn2' : n2 = { pnode with next := some hNew } := by
        rw [hkk] at hn2
        rw [List.getElem?_set_self (by simpa using hkp1)] at hn2
        exact (Option.some.inj hn2).symm
      subst hn2'
      rw [hkk, List.set_set] at hs3
      subst hs3
      have hMCself : pnode.previous = some p := by
        have := (inv.mc pe.item_index pe.item_index p p pnode pnode hhap hpn
          hhap hpn).1
        rw [hnxt, hnxp] at this
        exact this rfl
      have hdecode : ∀ (i : Nat) (n : Node T),
          (s1.items.set pe.item_index ⟨pnode.value, some hNew, some hNew⟩)[i]? = some n →
          (i = pe.item_index ∧ n = ⟨pnode.value, some hNew, some hNew⟩) ∨
          (i ≠ pe.item_index ∧ i < s.items.length ∧ s.items[i]? = some n) ∨
          (i = s.items.length ∧ n = ⟨v, pnode.next, some p⟩) := by
        intro i n hn
        by_cases hik : i = pe.item_index
        · subst hik
          rw [List.getElem?_set_self (by simpa using hkp1)] at hn
          cases hn
          exact Or.inl ⟨rfl, rfl⟩
        · rw [List.getElem?_set_ne (fun hc => hik hc.symm)] at hn
          have hb := hbound1 _ _ hn
          by_cases hil : i < s.items.length
          · rw [hold1 i hil] at hn
            exact Or.inr (Or.inl ⟨hik, hil, hn⟩)
          · have : i = s.items.length := by omega
            subst this
            rw [hnew1] at hn
            cases hn
            exact Or.inr (Or.inr ⟨rfl, rfl⟩)
      have hLcast : ∀ (h2 : SlotMapHandle) (its : List (Node T)),
          LinkOK s1 h2 → LinkOK { s1 with items := its } h2 :=
        fun h2 its hk => hk
      refine ⟨WF_set_items wf1 _ _, ?_, ?_⟩
      · intro i n hn
        rcases hdecode i n hn with ⟨hik, hnn⟩ | ⟨hik, hilt, hiold⟩ | ⟨hik, hnn⟩
        · subst hnn
          constructor
          · intro hh hc
            cases hc
            exact hLcast _ _ (LinkOK_pushed inv.wf hpush)
          · intro hh hc
            cases hc
            exact hLcast _ _ (LinkOK_pushed inv.wf hpush)
        · constructor
          · intro hh hc
            exact hLcast _ _ (LinkOK_push hpush (hLok _ _ _ hiold (Or.inl hc)))
          · intro hh hc
            exact hLcast _ _ (LinkOK_push hpush (hLok _ _ _ hiold (Or.inr hc)))
        · subst hnn
          constructor
          · intro hh hc
            exact hLcast _ _ (LinkOK_push hpush (hLok _ _ _ hpn (Or.inl hc)))
          · intro hh hc
            cases hc
            exact hLcast _ _ (LinkOK_push hpush hOKp)
      · intro i j hi hj ni nj hhi hni hhj hnj
        rw [handleAt_set_items] at hhi hhj
        constructor
        · intro hlink
          rcases hdecode i ni hni with ⟨hik, hni2⟩ | ⟨hik, hilt, hiold⟩ |
            ⟨hik, hni2⟩
          · subst hni2
            cases hlink
            have hjlen : j = s.items.length := handleAt_inj wf1 hhj hH3
            subst hjlen
            rcases hdecode _ nj hnj with ⟨hjk, hjn⟩ | ⟨hjk, hjlt, hjold⟩ |
              ⟨hjk, hjn⟩
            · omega
            · omega
            · subst hjn
              subst hik
              rw [hH2 _ hkp, hhap] at hhi
              cases hhi
              rfl
          · have hnej : hj ≠ hNew := hLne _ _ _ hiold (Or.inl hlink)
            obtain ⟨hjlt, hhj2⟩ := hgetH j hj hhj hnej
            rw [hH2 i hilt] at hhi
            obtain ⟨mj, hmj⟩ := hnodeAt j hj hhj2
            have hmc := (inv.mc i j hi hj ni mj hhi hiold hhj2 hmj).1 hlink
            rcases hdecode _ nj hnj with ⟨hjk, hjn⟩ | ⟨hjk, hjlt2, hjold⟩ |
              ⟨hjk, hjn⟩
            · -- the target is the cycle node: old consistency forces i = kp
              subst hjk
              subst hjn
              rw [hpn] at hmj
              cases hmj
              rw [hMCself] at hmc
              cases hmc
              exact absurd (handleAt_inj inv.wf hhi hhap) hik
            · rw [hjold] at hmj
              cases hmj
              exact hmc
            · omega
          · subst hni2
            rw [hnxt] at hlink
            cases hlink
            have hhp1 : handleAt s1 pe.item_index = some p := by
              rw [hH2 _ hkp]
              exact hhap
            have hjkp : j = pe.item_index := by
              refine handleAt_inj wf1 hhj ?_
              rw [hnxp]
              exact hhp1
            subst hjkp
            rcases hdecode _ nj hnj with ⟨hjk, hjn⟩ | ⟨hjk, hjlt2, hjold⟩ |
              ⟨hjk, hjn⟩
            · subst hjn
              subst hik
              rw [hH3] at hhi
              cases hhi
              rfl
            · omega
            · omega
        · intro hlink
          rcases hdecode i ni hni with ⟨hik, hni2⟩ | ⟨hik, hilt, hiold⟩ |
            ⟨hik, hni2⟩
          · subst hni2
            cases hlink
            have hjlen : j = s.items.length := handleAt_inj wf1 hhj hH3
            subst hjlen
            rcases hdecode _ nj hnj with ⟨hjk, hjn⟩ | ⟨hjk, hjlt, hjold⟩ |
              ⟨hjk, hjn⟩
            · omega
            · omega
            · subst hjn
              subst hik
              rw [hH2 _ hkp, hhap] at hhi
              cases hhi
              rw [hnxt, hnxp]
          · have hnej : hj ≠ hNew := hLne _ _ _ hiold (Or.inr hlink)
            obtain ⟨hjlt, hhj2⟩ := hgetH j hj hhj hnej
            rw [hH2 i hilt] at hhi
            obtain ⟨mj, hmj⟩ := hnodeAt j hj hhj2
            have hmc := (inv.mc i j hi hj ni mj hhi hiold hhj2 hmj).2 hlink
            rcases hdecode _ nj hnj with ⟨hjk, hjn⟩ | ⟨hjk, hjlt2, hjold⟩ |
              ⟨hjk, hjn⟩
            · subst hjk
              subst hjn
              rw [hpn] at hmj
              cases hmj
              rw [hnxt, hnxp] at hmc
              cases hmc
              exact absurd (handleAt_inj inv.wf hhi hhap) hik
            · rw [hjold] at hmj
              cases hmj
              exact hmc
            · omega
          · subst hni2
            have hlink2 : some p = some hj := hlink
            cases hlink2
            have hhp1 : handleAt s1 pe.item_index = some p := by
              rw [hH2 _ hkp]
              exact hhap
            have hjkp : j = pe.item_index := handleAt_inj wf1 hhj hhp1
            subst hjkp
            rcases hdecode _ nj hnj with ⟨hjk, hjn⟩ | ⟨hjk, hjlt2, hjold⟩ |
              ⟨hjk, hjn⟩
            · subst hjn
              subst hik
              rw [hH3] at hhi
              cases hhi
              rfl
            · omega
            · omega
    · -- distinct predecessor and successor nodes
      have hnxnep : nx ≠ p := by
        intro hc
        rw [hc, hpe] at hen
        cases Option.some.inj hen
        exact hkk rfl
      obtain ⟨nxnode, hnxnode⟩ : ∃ m, s.items[en.item_index]? = some m := by
        cases hm : s.items[en.item_index]? with
        | none =>
          have := List.getElem?_eq_none_iff.mp hm
          omega
        | some m => exact ⟨m, rfl⟩
      have hn2' : nxnode = n2 := by
        rw [List.getElem?_set_ne (fun hc => hkk hc.symm)] at hn2
        rw [hold1 _ hknx, hnxnode] at hn2
        exact Option.some.inj hn2
      subst hn2'
      subst hs3
      have hMCp : nxnode.previous = some p :=
        (inv.mc pe.item_index en.item_index p nx pnode nxnode hhap hpn
          hhanx hnxnode).1 hnxt
      have hhanx1 : handleAt s1 en.item_index = some nx := by
        rw [hH2 _ hknx]
        exact hhanx
      have hhp1 : handleAt s1 pe.item_index = some p := by
        rw [hH2 _ hkp]
        exact hhap
      have hdecode : ∀ (i : Nat) (n : Node T),
          ((s1.items.set pe.item_index ⟨pnode.value, some hNew, pnode.previous⟩).set en.item_index ⟨nxnode.value, nxnode.next, some hNew⟩)[i]? = some n →
          (i = en.item_index ∧ n = ⟨nxnode.value, nxnode.next, some hNew⟩) ∨
          (i = pe.item_index ∧ n = ⟨pnode.value, some hNew, pnode.previous⟩) ∨
          (i ≠ en.item_index ∧ i ≠ pe.item_index ∧ i < s.items.length ∧
            s.items[i]? = some n) ∨
          (i = s.items.length ∧ n = ⟨v, pnode.next, some p⟩) := by
        intro i n hn
        by_cases hin : i = en.item_index
        · subst hin
          rw [List.getElem?_set_self (by simpa using hknx1)] at hn
          cases hn
          exact Or.inl ⟨rfl, rfl⟩
        · rw [List.getElem?_set_ne (fun hc => hin hc.symm)] at hn
          by_cases hik : i = pe.item_index
          · subst hik
            rw [List.getElem?_set_self (by simpa using hkp1)] at hn
            cases hn
            exact Or.inr (Or.inl ⟨rfl, rfl⟩)
          · rw [List.getElem?_set_ne (fun hc => hik hc.symm)] at hn
            have hb := hbound1 _ _ hn
            by_cases hil : i < s.items.length
            · rw [hold1 i hil] at hn
              exact Or.inr (Or.inr (Or.inl ⟨hin, hik, hil, hn⟩))
            · have : i = s.items.length := by omega
              subst this
              rw [hnew1] at hn
              cases hn
              exact Or.inr (Or.inr (Or.inr ⟨rfl, rfl⟩))
      have hLcast : ∀ (h2 : SlotMapHandle) (its : List (Node T)),
          LinkOK s1 h2 → LinkOK { s1 with items := its } h2 :=
        fun h2 its hk => hk
      refine ⟨ArenaWF_items wf1 _ (by simp), ?_, ?_⟩
      · intro i n hn
        rcases hdecode i n hn with ⟨hik, hnn⟩ | ⟨hik, hnn⟩ |
          ⟨hi1, hi2b, hilt, hiold⟩ | ⟨hik, hnn⟩
        · subst hnn
          constructor
          · intro hh hc
            have hc2 : nxnode.next = some hh := hc
            exact hLcast _ _ (LinkOK_push hpush (hLok _ _ _ hnxnode (Or.inl hc2)))
          · intro hh hc
            cases hc
            exact hLcast _ _ (LinkOK_pushed inv.wf hpush)
        · subst hnn
          constructor
          · intro hh hc
            cases hc
            exact hLcast _ _ (LinkOK_pushed inv.wf hpush)
          · intro hh hc
            have hc2 : pnode.previous = some hh := hc
            exact hLcast _ _ (LinkOK_push hpush (hLok _ _ _ hpn (Or.inr hc2)))
        · constructor
          · intro hh hc
            exact hLcast _ _ (LinkOK_push hpush (hLok _ _ _ hiold (Or.inl hc)))
          · intro hh hc
            exact hLcast _ _ (LinkOK_push hpush (hLok _ _ _ hiold (Or.inr hc)))
        · subst hnn
          constructor
          · intro hh hc
            exact hLcast _ _ (LinkOK_push hpush (hLok _ _ _ hpn (Or.inl hc)))
          · intro hh hc
            cases hc
            exact hLcast _ _ (LinkOK_push hpush hOKp)
      · intro i j hi hj ni nj hhi hni hhj hnj
        replace hhi : handleAt s1 i = some hi := hhi
        replace hhj : handleAt s1 j = some hj := hhj
        constructor
        · intro hlink
          rcases hdecode i ni hni with ⟨hik, hni2⟩ | ⟨hik, hni2⟩ |
            ⟨hi1, hi2b, hilt, hiold⟩ | ⟨hik, hni2⟩
          · -- i is the old successor: its next link is untouched
            subst hni2
            have hlink2 : nxnode.next = some hj := hlink
            have hnej : hj ≠ hNew := hLne _ _ _ hnxnode (Or.inl hlink2)
            obtain ⟨hjlt, hhj2⟩ := hgetH j hj hhj hnej
            subst hik
            rw [hH2 _ hknx] at hhi
            obtain ⟨mj, hmj⟩ := hnodeAt j hj hhj2
            have hmc := (inv.mc _ j hi hj nxnode mj hhi hnxnode hhj2 hmj).1
              hlink2
            rcases hdecode _ nj hnj with ⟨hjk, hjn⟩ | ⟨hjk, hjn⟩ |
              ⟨hj1, hj2b, hjlt2, hjold⟩ | ⟨hjk, hjn⟩
            · subst hjk
              subst hjn
              rw [hnxnode] at hmj
              cases hmj
              rw [hMCp] at hmc
              cases hmc
              exact absurd (handleAt_inj inv.wf hhi hhap) hkk
            · subst hjk
              subst hjn
              rw [hpn] at hmj
              cases hmj
              exact hmc
            · rw [hjold] at hmj
              cases hmj
              exact hmc
            · omega
          · -- i is the predecessor: next now points at the new node
            subst hni2
            cases hlink
            have hjlen : j = s.items.length := handleAt_inj wf1 hhj hH3
            subst hjlen
            rcases hdecode _ nj hnj with ⟨hjk, hjn⟩ | ⟨hjk, hjn⟩ |
              ⟨hj1, hj2b, hjlt2, hjold⟩ | ⟨hjk, hjn⟩
            · omega
            · omega
            · omega
            · subst hjn
              subst hik
              rw [hH2 _ hkp, hhap] at hhi
              cases hhi
              rfl
          · -- i is an untouched old node
            have hnej : hj ≠ hNew := hLne _ _ _ hiold (Or.inl hlink)
            obtain ⟨hjlt, hhj2⟩ := hgetH j hj hhj hnej
            rw [hH2 i hilt] at hhi
            obtain ⟨mj, hmj⟩ := hnodeAt j hj hhj2
            have hmc := (inv.mc i j hi hj ni mj hhi hiold hhj2 hmj).1 hlink
            rcases hdecode _ nj hnj with ⟨hjk, hjn⟩ | ⟨hjk, hjn⟩ |
              ⟨hj1, hj2b, hjlt2, hjold⟩ | ⟨hjk, hjn⟩
            · subst hjk
              subst hjn
              rw [hnxnode] at hmj
              cases hmj
              rw [hMCp] at hmc
              cases hmc
              exact absurd (handleAt_inj inv.wf hhi hhap) hi2b
            · subst hjk
              subst hjn
              rw [hpn] at hmj
              cases hmj
              exact hmc
            · rw [hjold] at hmj
              cases hmj
              exact hmc
            · omega
          · -- i is the new node: next = nx, the old successor
            subst hni2
            have hlink2 : pnode.next = some hj := hlink
            rw [hnxt] at hlink2
            cases hlink2
            have hjknx : j = en.item_index := handleAt_inj wf1 hhj hhanx1
            subst hjknx
            rcases hdecode _ nj hnj with ⟨hjk, hjn⟩ | ⟨hjk, hjn⟩ |
              ⟨hj1, hj2b, hjlt2, hjold⟩ | ⟨hjk, hjn⟩
            · subst hjn
              subst hik
              rw [hH3] at hhi
              cases hhi
              rfl
            · omega
            · exact absurd rfl hj1
            · omega
        · intro hlink
          rcases hdecode i ni hni with ⟨hik, hni2⟩ | ⟨hik, hni2⟩ |
            ⟨hi1, hi2b, hilt, hiold⟩ | ⟨hik, hni2⟩
          · -- i is the old successor: previous now points at the new node
            subst hni2
            cases hlink
            have hjlen : j = s.items.length := handleAt_inj wf1 hhj hH3
            subst hjlen
            rcases hdecode _ nj hnj with ⟨hjk, hjn⟩ | ⟨hjk, hjn⟩ |
              ⟨hj1, hj2b, hjlt2, hjold⟩ | ⟨hjk, hjn⟩
            · omega
            · omega
            · omega
            · subst hjn
              subst hik
              rw [hhanx1] at hhi
              cases hhi
              exact hnxt
          · -- i is the predecessor: previous unchanged
            subst hni2
            have hlink2 : pnode.previous = some hj := hlink
            have hnej : hj ≠ hNew := hLne _ _ _ hpn (Or.inr hlink2)
            obtain ⟨hjlt, hhj2⟩ := hgetH j hj hhj hnej
            subst hik
            rw [hH2 _ hkp] at hhi
            obtain ⟨mj, hmj⟩ := hnodeAt j hj hhj2
            have hmc := (inv.mc _ j hi hj pnode mj hhi hpn hhj2 hmj).2 hlink2
            rcases hdecode _ nj hnj with ⟨hjk, hjn⟩ | ⟨hjk, hjn⟩ |
              ⟨hj1, hj2b, hjlt2, hjold⟩ | ⟨hjk, hjn⟩
            · subst hjk
              subst hjn
              rw [hnxnode] at hmj
              cases hmj
              exact hmc
            · subst hjk
              subst hjn
              rw [hpn] at hmj
              cases hmj
              rw [hnxt] at hmc
              rw [hhap] at hhi
              cases hhi
              exact absurd (Option.some.inj hmc) hnxnep
            · rw [hjold] at hmj
              cases hmj
              exact hmc
            · omega
          · -- i is an untouched old node
            have hnej : hj ≠ hNew := hLne _ _ _ hiold (Or.inr hlink)
            obtain ⟨hjlt, hhj2⟩ := hgetH j hj hhj hnej
            rw [hH2 i hilt] at hhi
            obtain ⟨mj, hmj⟩ := hnodeAt j hj hhj2
            have hmc := (inv.mc i j hi hj ni mj hhi hiold hhj2 hmj).2 hlink
            rcases hdecode _ nj hnj with ⟨hjk, hjn⟩ | ⟨hjk, hjn⟩ |
              ⟨hj1, hj2b, hjlt2, hjold⟩ | ⟨hjk, hjn⟩
            · subst hjk
              subst hjn
              rw [hnxnode] at hmj
              cases hmj
              exact hmc
            · subst hjk
              subst hjn
              rw [hpn] at hmj
              cases hmj
              rw [hnxt] at hmc
              cases hmc
              exact absurd (handleAt_inj inv.wf hhi hhanx) hi1
            · rw [hjold] at hmj
              cases hmj
              exact hmc
            · omega
          · -- i is the new node: previous = p, the predecessor
            subst hni2
            have hlink2 : some p = some hj := hlink
            cases hlink2
            have hjkp : j = pe.item_index := handleAt_inj wf1 hhj hhp1
            subst hjkp
            rcases hdecode _ nj hnj with ⟨hjk, hjn⟩ | ⟨hjk, hjn⟩ |
              ⟨hj1, hj2b, hjlt2, hjold⟩ | ⟨hjk, hjn⟩
            · omega
            · subst hjn
              subst hik
              rw [hH3] at hhi
              cases hhi
              rfl
            · exact absurd rfl hj2b
            · omega

/-- Unlinking around a dangling handle preserves the invariant: in a state
`t` satisfying the invariant where no live position carries the handle
`hD`, where the only live node whose `next` is `hD` is the target of `P`
(the dangling node's old predecessor) and the only live node whose
`previous` is `hD` is the target of `N`, splicing `P` and `N` together
(the two `get_mut` writes of the linked-list `remove`) yields a state that
satisfies the invariant again. -/
theorem LLInv_fixup {T : Type} {t t2 t3 : SlotMap (Node T)} (invt : LLInv t)
    {hD : SlotMapHandle} {P N : Option SlotMapHandle}
    (hdang : ∀ (j : Nat) (q : SlotMapHandle), handleAt t j = some q → q ≠ hD)
    (hPok : ∀ pP, P = some pP → LinkOK t pP)
    (hNok : ∀ nN, N = some nN → LinkOK t nN)
    (hPpt : ∀ (i : Nat) (ni : Node T) (q : SlotMapHandle),
      t.items[i]? = some ni → handleAt t i = some q →
      (ni.next = some hD ↔ P = some q))
    (hNpt : ∀ (i : Nat) (ni : Node T) (q : SlotMapHandle),
      t.items[i]? = some ni → handleAt t i = some q →
      (ni.previous = some hD ↔ N = some q))
    (hm2a : P = none → t2 = t)
    (hm2b : ∀ pP, P = some pP →
      modifyNode t pP (fun m => { m with next := N }) = some t2)
    (hm3a : N = none → t3 = t2)
    (hm3b : ∀ nN, N = some nN →
      modifyNode t2 nN (fun m => { m with previous := P }) = some t3) :
    LLInv t3 := by
  have hnodeAtT : ∀ (j : Nat) (q : SlotMapHandle), handleAt t j = some q →
      ∃ m, t.items[j]? = some m := by
    intro j q hh
    obtain ⟨ee, hje, -, -⟩ := handleAt_elim hh
    have hjlt := (List.getElem?_eq_some_iff.mp hje).1
    cases hje2 : t.items[j]? with
    | none =>
      have := List.getElem?_eq_none_iff.mp hje2
      have := invt.wf.len_eq
      omega
    | some m => exact ⟨m, rfl⟩
  have hLcast : ∀ (h2 : SlotMapHandle) (its : List (Node T)),
      LinkOK t h2 → LinkOK { t with items := its } h2 :=
    fun h2 its hk => hk
  cases P with
  | none =>
    have ht2 := (hm2a rfl).symm
    subst ht2
    cases N with
    | none =>
      have ht3 := (hm3a rfl).symm
      subst ht3
      exact invt
    | some nN =>
      obtain ⟨eN, n2, heN, heNg, hn2, hs3⟩ := modifyNode_char (hm3b nN rfl)
      obtain ⟨eN', heN', hNle, hNcond⟩ := hNok nN rfl
      have heq : eN = eN' := by
        rw [heN] at heN'
        exact Option.some.inj heN'
      subst heq
      have hNmem := hNcond heNg.symm
      obtain ⟨hhaN, hbackN, hiNlt⟩ := live_handleAt invt.wf hNmem heN heNg
      have hND : n2.previous = some hD :=
        (hNpt eN.item_index n2 nN hn2 hhaN).mpr rfl
      subst hs3
      refine ⟨WF_set_items invt.wf _ _, ?_, ?_⟩
      · intro i n hn
        by_cases hik : i = eN.item_index
        · subst hik
          rw [List.getElem?_set_self (by simpa using hiNlt)] at hn
          cases hn
          obtain ⟨l1, l2⟩ := invt.links _ _ hn2
          constructor
          · intro hh hc
            exact hLcast _ _ (l1 hh hc)
          · intro hh hc
            cases hc
        · rw [List.getElem?_set_ne (fun hc => hik hc.symm)] at hn
          obtain ⟨l1, l2⟩ := invt.links _ _ hn
          exact ⟨fun hh hc => hLcast _ _ (l1 hh hc),
            fun hh hc => hLcast _ _ (l2 hh hc)⟩
      · intro i j hi hj ni nj hhi hni hhj hnj
        replace hhi : handleAt t i = some hi := hhi
        replace hhj : handleAt t j = some hj := hhj
        have hidg := hdang i hi hhi
        have hjdg := hdang j hj hhj
        constructor
        · intro hlink
          by_cases hik : i = eN.item_index
          · subst hik
            rw [List.getElem?_set_self (by simpa using hiNlt)] at hni
            cases hni
            have hlink2 : n2.next = some hj := hlink
            obtain ⟨mj, hmj⟩ := hnodeAtT j hj hhj
            have hmc := (invt.mc _ j hi hj n2 mj hhi hn2 hhj hmj).1 hlink2
            by_cases hjk : j = eN.item_index
            · subst hjk
              rw [hn2] at hmj
              cases hmj
              rw [hND] at hmc
              cases hmc
              exact absurd rfl hidg
            · rw [List.getElem?_set_ne (fun hc => hjk hc.symm)] at hnj
              rw [hnj] at hmj
              cases hmj
              exact hmc
          · rw [List.getElem?_set_ne (fun hc => hik hc.symm)] at hni
            obtain ⟨mj, hmj⟩ := hnodeAtT j hj hhj
            have hmc := (invt.mc i j hi hj ni mj hhi hni hhj hmj).1 hlink
            by_cases hjk : j = eN.item_index
            · subst hjk
              rw [hn2] at hmj
              cases hmj
              rw [hND] at hmc
              cases hmc
              exact absurd rfl hidg
            · rw [List.getElem?_set_ne (fun hc => hjk hc.symm)] at hnj
              rw [hnj] at hmj
              cases hmj
              exact hmc
        · intro hlink
          by_cases hik : i = eN.item_index
          · subst hik
            rw [List.getElem?_set_self (by simpa using hiNlt)] at hni
            cases hni
            cases hlink
          · rw [List.getElem?_set_ne (fun hc => hik hc.symm)] at hni
            obtain ⟨mj, hmj⟩ := hnodeAtT j hj hhj
            have hmc := (invt.mc i j hi hj ni mj hhi hni hhj hmj).2 hlink
            by_cases hjk : j = eN.item_index
            · subst hjk
              rw [hn2] at hmj
              cases hmj
              rw [List.getElem?_set_self (by simpa using hiNlt)] at hnj
              cases hnj
              exact hmc
            · rw [List.getElem?_set_ne (fun hc => hjk hc.symm)] at hnj
              rw [hnj] at hmj
              cases hmj
              exact hmc
  | some pP =>
    obtain ⟨eP, nP, heP, hePg, hnP, hs2⟩ := modifyNode_char (hm2b pP rfl)
    obtain ⟨eP', heP', hPle, hPcond⟩ := hPok pP rfl
    have heq : eP = eP' := by
      rw [heP] at heP'
      exact Option.some.inj heP'
    subst heq
    have hPmem := hPcond hePg.symm
    obtain ⟨hhaP, hbackP, hiPlt⟩ := live_handleAt invt.wf hPmem heP hePg
    have hPD : nP.next = some hD := (hPpt eP.item_index nP pP hnP hhaP).mpr rfl
    subst hs2
    cases N with
    | none =>
      have ht3 := (hm3a rfl).symm
      subst ht3
      refine ⟨WF_set_items invt.wf _ _, ?_, ?_⟩
      · intro i n hn
        by_cases hik : i = eP.item_index
        · subst hik
          rw [List.getElem?_set_self (by simpa using hiPlt)] at hn
          cases hn
          obtain ⟨l1, l2⟩ := invt.links _ _ hnP
          constructor
          · intro hh hc
            cases hc
          · intro hh hc
            exact hLcast _ _ (l2 hh hc)
        · rw [List.getElem?_set_ne (fun hc => hik hc.symm)] at hn
          obtain ⟨l1, l2⟩ := invt.links _ _ hn
          exact ⟨fun hh hc => hLcast _ _ (l1 hh hc),
            fun hh hc => hLcast _ _ (l2 hh hc)⟩
      · intro i j hi hj ni nj hhi hni hhj hnj
        replace hhi : handleAt t i = some hi := hhi
        replace hhj : handleAt t j = some hj := hhj
        have hidg := hdang i hi hhi
        have hjdg := hdang j hj hhj
        constructor
        · intro hlink
          by_cases hik : i = eP.item_index
          · subst hik
            rw [List.getElem?_set_self (by simpa using hiPlt)] at hni
            cases hni
            cases hlink
          · rw [List.getElem?_set_ne (fun hc => hik hc.symm)] at hni
            obtain ⟨mj, hmj⟩ := hnodeAtT j hj hhj
            have hmc := (invt.mc i j hi hj ni mj hhi hni hhj hmj).1 hlink
            by_cases hjk : j = eP.item_index
            · subst hjk
              rw [hnP] at hmj
              cases hmj
              rw [List.getElem?_set_self (by simpa using hiPlt)] at hnj
              cases hnj
              exact hmc
            · rw [List.getElem?_set_ne (fun hc => hjk hc.symm)] at hnj
              rw [hnj] at hmj
              cases hmj
              exact hmc
        · intro hlink
          by_cases hik : i = eP.item_index
          · subst hik
            rw [List.getElem?_set_self (by simpa using hiPlt)] at hni
            cases hni
            have hlink2 : nP.previous = some hj := hlink
            obtain ⟨mj, hmj⟩ := hnodeAtT j hj hhj
            have hmc := (invt.mc _ j hi hj nP mj hhi hnP hhj hmj).2 hlink2
            by_cases hjk : j = eP.item_index
            · subst hjk
              rw [hnP] at hmj
              cases hmj
              rw [hPD] at hmc
              cases hmc
              exact absurd rfl hidg
            · rw [List.getElem?_set_ne (fun hc => hjk hc.symm)] at hnj
              rw [hnj] at hmj
              cases hmj
              exact hmc
          · rw [List.getElem?_set_ne (fun hc => hik hc.symm)] at hni
            obtain ⟨mj, hmj⟩ := hnodeAtT j hj hhj
            have hmc := (invt.mc i j hi hj ni mj hhi hni hhj hmj).2 hlink
            by_cases hjk : j = eP.item_index
            · subst hjk
              rw [hnP] at hmj
              cases hmj
              rw [hPD] at hmc
              cases hmc
              exact absurd rfl hidg
            · rw [List.getElem?_set_ne (fun hc => hjk hc.symm)] at hnj
              rw [hnj] at hmj
              cases hmj
              exact hmc
    | some nN =>
      obtain ⟨eN, n2, heN, heNg, hn2, hs3⟩ := modifyNode_char (hm3b nN rfl)
      dsimp only at heN hn2 hs3
      obtain ⟨eN', heN', hNle, hNcond⟩ := hNok nN rfl
      have heq2 : eN = eN' := by
        rw [heN] at heN'
        exact Option.some.inj heN'
      subst heq2
      have hNmem := hNcond heNg.symm
      obtain ⟨hhaN, hbackN, hiNlt⟩ := live_handleAt invt.wf hNmem heN heNg
      obtain ⟨nNode, hnNode⟩ := hnodeAtT eN.item_index nN hhaN
      have hND : nNode.previous = some hD :=
        (hNpt _ nNode nN hnNode hhaN).mpr rfl
      by_cases hNP : eN.item_index = eP.item_index
      · -- predecessor and successor are the same node
        have hpPnN : pP = nN := by
          rw [hNP, hhaP] at hhaN
          exact Option.some.inj hhaN
        have hnn : nP = nNode := by
          rw [hNP, hnP] at hnNode
          exact Option.some.inj hnNode
        subst hnn
        have hn2' : n2 = { nP with next := some nN } := by
          rw [hNP] at hn2
          rw [List.getElem?_set_self (by simpa using hiPlt)] at hn2
          exact (Option.some.inj hn2).symm
        subst hn2'
        rw [hNP, List.set_set] at hs3
        subst hs3
        refine ⟨WF_set_items invt.wf _ _, ?_, ?_⟩
        · intro i n hn
          by_cases hik : i = eP.item_index
          · subst hik
            rw [List.getElem?_set_self (by simpa using hiPlt)] at hn
            cases hn
            constructor
            · intro hh hc
              cases hc
              exact hLcast _ _ (hNok nN rfl)
            · intro hh hc
              cases hc
              exact hLcast _ _ (hPok pP rfl)
          · rw [List.getElem?_set_ne (fun hc => hik hc.symm)] at hn
            obtain ⟨l1, l2⟩ := invt.links _ _ hn
            exact ⟨fun hh hc => hLcast _ _ (l1 hh hc),
              fun hh hc => hLcast _ _ (l2 hh hc)⟩
        · intro i j hi hj ni nj hhi hni hhj hnj
          replace hhi : handleAt t i = some hi := hhi
          replace hhj : handleAt t j = some hj := hhj
          have hidg := hdang i hi hhi
          have hjdg := hdang j hj hhj
          constructor
          · intro hlink
            by_cases hik : i = eP.item_index
            · subst hik
              rw [List.getElem?_set_self (by simpa using hiPlt)] at hni
              cases hni
              cases hlink
              have hjP : j = eN.item_index := handleAt_inj invt.wf hhj hhaN
              subst hjP
              rw [hNP] at hnj
              rw [List.getElem?_set_self (by simpa using hiPlt)] at hnj
              cases hnj
              rw [hhaP] at hhi
              cases hhi
              rfl
            · rw [List.getElem?_set_ne (fun hc => hik hc.symm)] at hni
              obtain ⟨mj, hmj⟩ := hnodeAtT j hj hhj
              have hmc := (invt.mc i j hi hj ni mj hhi hni hhj hmj).1 hlink
              by_cases hjk : j = eP.item_index
              · subst hjk
                rw [hnP] at hmj
                cases hmj
                rw [hND] at hmc
                cases hmc
                exact absurd rfl hidg
              · rw [List.getElem?_set_ne (fun hc => hjk hc.symm)] at hnj
                rw [hnj] at hmj
                cases hmj
                exact hmc
          · intro hlink
            by_cases hik : i = eP.item_index
            · subst hik
              rw [List.getElem?_set_self (by simpa using hiPlt)] at hni
              cases hni
              cases hlink
              have hjP : j = eP.item_index := handleAt_inj invt.wf hhj hhaP
              subst hjP
              rw [List.getElem?_set_self (by simpa using hiPlt)] at hnj
              cases hnj
              rw [hhaP] at hhi
              cases hhi
              rw [hpPnN]
            · rw [List.getElem?_set_ne (fun hc => hik hc.symm)] at hni
              obtain ⟨mj, hmj⟩ := hnodeAtT j hj hhj
              have hmc := (invt.mc i j hi hj ni mj hhi hni hhj hmj).2 hlink
              by_cases hjk : j = eP.item_index
              · subst hjk
                rw [hnP] at hmj
                cases hmj
                rw [hPD] at hmc
                cases hmc
                exact absurd rfl hidg
              · rw [List.getElem?_set_ne (fun hc => hjk hc.symm)] at hnj
                rw [hnj] at hmj
                cases hmj
                exact hmc
      · -- distinct predecessor and successor nodes
        have hn2' : nNode = n2 := by
          rw [List.getElem?_set_ne (fun hc => hNP hc.symm)] at hn2
          rw [hnNode] at hn2
          exact Option.some.inj hn2
        subst hn2'
        subst hs3
        refine ⟨ArenaWF_items invt.wf _ (by simp), ?_, ?_⟩
        · intro i n hn
          by_cases hin : i = eN.item_index
          · subst hin
            rw [List.getElem?_set_self (by simpa using hiNlt)] at hn
            cases hn
            obtain ⟨l1, l2⟩ := invt.links _ _ hnNode
            constructor
            · intro hh hc
              exact hLcast _ _ (l1 hh hc)
            · intro hh hc
              cases hc
              exact hLcast _ _ (hPok pP rfl)
          · rw [List.getElem?_set_ne (fun hc => hin hc.symm)] at hn
            by_cases hik : i = eP.item_index
            · subst hik
              rw [List.getElem?_set_self (by simpa using hiPlt)] at hn
              cases hn
              obtain ⟨l1, l2⟩ := invt.links _ _ hnP
              constructor
              · intro hh hc
                cases hc
                exact hLcast _ _ (hNok nN rfl)
              · intro hh hc
                exact hLcast _ _ (l2 hh hc)
            · rw [List.getElem?_set_ne (fun hc => hik hc.symm)] at hn
              obtain ⟨l1, l2⟩ := invt.links _ _ hn
              exact ⟨fun hh hc => hLcast _ _ (l1 hh hc),
                fun hh hc => hLcast _ _ (l2 hh hc)⟩
        · intro i j hi hj ni nj hhi hni hhj hnj
          replace hhi : handleAt t i = some hi := hhi
          replace hhj : handleAt t j = some hj := hhj
          have hidg := hdang i hi hhi
          have hjdg := hdang j hj hhj
          have hdecode : ∀ (k : Nat) (m : Node T),
              ((t.items.set eP.item_index
                { nP with next := some nN }).set eN.item_index
                ⟨nNode.value, nNode.next, some pP⟩)[k]? = some m →
              (k = eN.item_index ∧ m = ⟨nNode.value, nNode.next, some pP⟩) ∨
              (k = eP.item_index ∧ m = { nP with next := some nN }) ∨
              (k ≠ eN.item_index ∧ k ≠ eP.item_index ∧ t.items[k]? = some m) := by
            intro k m hm
            by_cases hkn : k = eN.item_index
            · subst hkn
              rw [List.getElem?_set_self (by simpa using hiNlt)] at hm
              cases hm
              exact Or.inl ⟨rfl, rfl⟩
            · rw [List.getElem?_set_ne (fun hc => hkn hc.symm)] at hm
              by_cases hkp : k = eP.item_index
              · subst hkp
                rw [List.getElem?_set_self (by simpa using hiPlt)] at hm
                cases hm
                exact Or.inr (Or.inl ⟨rfl, rfl⟩)
              · rw [List.getElem?_set_ne (fun hc => hkp hc.symm)] at hm
                exact Or.inr (Or.inr ⟨hkn, hkp, hm⟩)
          constructor
          · intro hlink
            rcases hdecode i ni hni with ⟨hin, hni2⟩ | ⟨hin, hni2⟩ |
              ⟨hin1, hin2, hiold⟩
            · -- i is the successor node: next unchanged
              subst hni2
              have hlink2 : nNode.next = some hj := hlink
              subst hin
              obtain ⟨mj, hmj⟩ := hnodeAtT j hj hhj
              have hmc := (invt.mc _ j hi hj nNode mj hhi hnNode hhj hmj).1
                hlink2
              rcases hdecode j nj hnj with ⟨hjn, hnj2⟩ | ⟨hjn, hnj2⟩ |
                ⟨hjn1, hjn2, hjold⟩
              · subst hjn
                subst hnj2
                rw [hnNode] at hmj
                cases hmj
                rw [hND] at hmc
                cases hmc
                exact absurd rfl hidg
              · subst hjn
                subst hnj2
                rw [hnP] at hmj
                cases hmj
                exact hmc
              · rw [hjold] at hmj
                cases hmj
                exact hmc
            · -- i is the predecessor node: next now points at the successor
              subst hni2
              cases hlink
              have hjN : j = eN.item_index := handleAt_inj invt.wf hhj hhaN
              subst hjN
              rcases hdecode eN.item_index nj hnj with ⟨hjn, hnj2⟩ |
                ⟨hjn, hnj2⟩ | ⟨hjn1, hjn2, hjold⟩
              · subst hnj2
                subst hin
                rw [hhaP] at hhi
                cases hhi
                rfl
              · exact absurd hjn hNP
              · exact absurd rfl hjn1
            · -- i is any other node
              obtain ⟨mj, hmj⟩ := hnodeAtT j hj hhj
              have hmc := (invt.mc i j hi hj ni mj hhi hiold hhj hmj).1 hlink
              rcases hdecode j nj hnj with ⟨hjn, hnj2⟩ | ⟨hjn, hnj2⟩ |
                ⟨hjn1, hjn2, hjold⟩
              · subst hjn
                subst hnj2
                rw [hnNode] at hmj
                cases hmj
                rw [hND] at hmc
                cases hmc
                exact absurd rfl hidg
              · subst hjn
                subst hnj2
                rw [hnP] at hmj
                cases hmj
                exact hmc
              · rw [hjold] at hmj
                cases hmj
                exact hmc
          · intro hlink
            rcases hdecode i ni hni with ⟨hin, hni2⟩ | ⟨hin, hni2⟩ |
              ⟨hin1, hin2, hiold⟩
            · -- i is the successor: previous now points at the predecessor
              subst hni2
              cases hlink
              have hjP : j = eP.item_index := handleAt_inj invt.wf hhj hhaP
              subst hjP
              rcases hdecode eP.item_index nj hnj with ⟨hjn, hnj2⟩ |
                ⟨hjn, hnj2⟩ | ⟨hjn1, hjn2, hjold⟩
              · exact absurd hjn.symm hNP
              · subst hnj2
                subst hin
                rw [hhaN] at hhi
                cases hhi
                rfl
              · exact absurd rfl hjn2
            · -- i is the predecessor: previous unchanged
              subst hni2
              have hlink2 : nP.previous = some hj := hlink
              subst hin
              obtain ⟨mj, hmj⟩ := hnodeAtT j hj hhj
              have hmc := (invt.mc _ j hi hj nP mj hhi hnP hhj hmj).2 hlink2
              rcases hdecode j nj hnj with ⟨hjn, hnj2⟩ | ⟨hjn, hnj2⟩ |
                ⟨hjn1, hjn2, hjold⟩
              · subst hjn
                subst hnj2
                rw [hnNode] at hmj
                cases hmj
                exact hmc
              · subst hjn
                subst hnj2
                rw [hnP] at hmj
                cases hmj
                rw [hPD] at hmc
                cases hmc
                exact absurd rfl hidg
              · rw [hjold] at hmj
                cases hmj
                exact hmc
            · -- i is any other node
              obtain ⟨mj, hmj⟩ := hnodeAtT j hj hhj
              have hmc := (invt.mc i j hi hj ni mj hhi hiold hhj hmj).2 hlink
              rcases hdecode j nj hnj with ⟨hjn, hnj2⟩ | ⟨hjn, hnj2⟩ |
                ⟨hjn1, hjn2, hjold⟩
              · subst hjn
                subst hnj2
                rw [hnNode] at hmj
                cases hmj
                exact hmc
              · subst hjn
                subst hnj2
                rw [hnP] at hmj
                cases hmj
                rw [hPD] at hmc
                cases hmc
                exact absurd rfl hidg
              · rw [hjold] at hmj
                cases hmj
                exact hmc

/-- Every dense position surviving a `remove` carries a node and a canonical
handle that already appeared together at some position of the old map. -/
theorem remove_survivor {T : Type} {s : SlotMap T} {h : SlotMapHandle}
    {t : T} {s' : SlotMap T} (wf : ArenaWF s)
    (hlive : h.indirection_index ∈ s.item_to_indirection_index)
    (hr : SlotMap.remove s h = some (some t, s')) :
    ∀ (i : Nat) (ni : T), s'.items[i]? = some ni →
      ∃ i0, s.items[i0]? = some ni ∧
        ∀ q, handleAt s' i = some q → handleAt s i0 = some q := by
  obtain ⟨e, lastIdx, he, hgen, hback, hkx, hlast', hX, hitems, hi2i, heh,
    hel, heo, hfree⟩ := remove_char wf hlive hr
  intro i ni hni
  have hilt : i < s.items.length - 1 := by
    by_contra hge
    rw [hitems i, if_neg hge] at hni
    cases hni
  obtain ⟨e', he', hcond⟩ := handleAt_remove wf hlive hr i hilt
  rw [he] at he'
  cases he'
  rw [hitems i, if_pos hilt] at hni
  by_cases hik : i = e.item_index
  · rw [if_pos hik] at hni
    refine ⟨s.items.length - 1, hni, ?_⟩
    intro q hq
    rw [← hcond.1 hik]
    exact hq
  · rw [if_neg hik] at hni
    refine ⟨i, hni, ?_⟩
    intro q hq
    rw [← hcond.2 hik]
    exact hq

/-- Destructor for a completed linked-list `remove`: the exact sequence of
arena steps it performs. -/
theorem llRemove_destruct {T : Type} {s : SlotMap (Node T)}
    {h : SlotMapHandle} {res : T × Option SlotMapHandle × Option SlotMapHandle}
    {s' : SlotMap (Node T)}
    (hrem : LinkedListSlotMap.remove s h = some (res, s')) :
    ∃ (X : Node T) (s1 s2 : SlotMap (Node T)),
      SlotMap.remove s h = some (some X, s1) ∧
      res = (X.value, X.previous, X.next) ∧
      ((X.previous = none ∧ s2 = s1) ∨
        ∃ p, X.previous = some p ∧
          modifyNode s1 p (fun m => { m with next := X.next }) = some s2) ∧
      ((X.next = none ∧ s' = s2) ∨
        ∃ nx, X.next = some nx ∧
          modifyNode s2 nx (fun m => { m with previous := X.previous }) =
            some s') := by
  cases hr : SlotMap.remove s h with
  | none => simp [LinkedListSlotMap.remove, hr] at hrem
  | some pr =>
    obtain ⟨o, s1⟩ := pr
    cases o with
    | none => simp [LinkedListSlotMap.remove, hr] at hrem
    | some X =>
      simp only [LinkedListSlotMap.remove, hr] at hrem
      cases hp : X.previous with
      | none =>
        simp only [hp] at hrem
        cases hn : X.next with
        | none =>
          simp only [hn, Option.some.injEq, Prod.mk.injEq] at hrem
          obtain ⟨hres, hs⟩ := hrem
          subst hs
          refine ⟨X, s1, s1, rfl, ?_, Or.inl ⟨hp, rfl⟩, Or.inl ⟨hn, rfl⟩⟩
          rw [← hres, hp, hn]
        | some nx =>
          cases hm3 : modifyNode s1 nx
              (fun m => { m with previous := X.previous }) with
          | none =>
            rw [hp] at hm3
            simp only [hn, hm3] at hrem
            cases hrem
          | some s3 =>
            rw [hp] at hm3
            simp only [hn, hm3, Option.some.injEq, Prod.mk.injEq] at hrem
            obtain ⟨hres, hs⟩ := hrem
            subst hs
            refine ⟨X, s1, s1, rfl, ?_, Or.inl ⟨hp, rfl⟩,
              Or.inr ⟨nx, hn, ?_⟩⟩
            · rw [← hres, hp, hn]
            · rw [hp]
              exact hm3
      | some p =>
        cases hm2 : modifyNode s1 p (fun m => { m with next := X.next }) with
        | none =>
          simp only [hp, hm2] at hrem
          cases hrem
        | some s2 =>
          simp only [hp, hm2] at hrem
          cases hn : X.next with
          | none =>
            simp only [hn, Option.some.injEq, Prod.mk.injEq] at hrem
            obtain ⟨hres, hs⟩ := hrem
            subst hs
            refine ⟨X, s1, s2, rfl, ?_, Or.inr ⟨p, hp, hm2⟩,
              Or.inl ⟨hn, rfl⟩⟩
            rw [← hres, hp, hn]
          | some nx =>
            cases hm3 : modifyNode s2 nx
                (fun m => { m with previous := X.previous }) with
            | none =>
              rw [hp] at hm3
              simp only [hn, hm3] at hrem
              cases hrem
            | some s3 =>
              rw [hp] at hm3
              simp only [hn, hm3, Option.some.injEq, Prod.mk.injEq] at hrem
              obtain ⟨hres, hs⟩ := hrem
              subst hs
              refine ⟨X, s1, s2, rfl, ?_, Or.inr ⟨p, hp, hm2⟩,
                Or.inr ⟨nx, hn, ?_⟩⟩
              · rw [← hres, hp, hn]
              · rw [hp]
                exact hm3

/-- A completed linked-list `remove` of a live handle preserves the full
linked-list invariant. -/
theorem LLInv_remove {T : Type} {s : SlotMap (Node T)} {h : SlotMapHandle}
    {res : T × Option SlotMapHandle × Option SlotMapHandle}
    {s' : SlotMap (Node T)} (inv : LLInv s) (hlive : liveHandle s h)
    (hrem : LinkedListSlotMap.remove s h = some (res, s')) :
    LLInv s' := by
  obtain ⟨X, s1, s2, hr, hres, hprev, hnext⟩ := llRemove_destruct hrem
  obtain ⟨e, lastIdx, he, hgen, hback, hkx, hlast', hX, hitems, hi2i, heh,
    hel, heo, hfree⟩ := remove_char inv.wf hlive hr
  obtain ⟨hha, -, -⟩ := live_handleAt inv.wf hlive he hgen
  have hsurv := remove_survivor inv.wf hlive hr
  have hXlinks := inv.links e.item_index X hX
  have wf1 : ArenaWF s1 := WF_remove inv.wf hlive hr
  have hdang : ∀ (j : Nat) (q : SlotMapHandle), handleAt s1 j = some q →
      q ≠ h := by
    intro j q hq hc
    exact handleAt_remove_ne inv.wf hlive hr j q hq (by rw [hc])
  have links1 : LinksWF s1 := by
    intro i n hn
    obtain ⟨i0, hi0, -⟩ := hsurv i n hn
    obtain ⟨l1, l2⟩ := inv.links i0 n hi0
    exact ⟨fun h2 hc => LinkOK_remove inv.wf hlive hr (l1 h2 hc),
      fun h2 hc => LinkOK_remove inv.wf hlive hr (l2 h2 hc)⟩
  have mc1 : MutualConsistent s1 := by
    intro i j hi hj ni nj hhi hni hhj hnj
    obtain ⟨i0, hi0, hq0⟩ := hsurv i ni hni
    obtain ⟨j0, hj0, hqj⟩ := hsurv j nj hnj
    exact inv.mc i0 j0 hi hj ni nj (hq0 hi hhi) hi0 (hqj hj hhj) hj0
  have inv1 : LLInv s1 := ⟨wf1, links1, mc1⟩
  have hPok : ∀ pP, X.previous = some pP → LinkOK s1 pP :=
    fun pP hc => LinkOK_remove inv.wf hlive hr (hXlinks.2 pP hc)
  have hNok : ∀ nN, X.next = some nN → LinkOK s1 nN :=
    fun nN hc => LinkOK_remove inv.wf hlive hr (hXlinks.1 nN hc)
  have hPpt : ∀ (i : Nat) (ni : Node T) (q : SlotMapHandle),
      s1.items[i]? = some ni → handleAt s1 i = some q →
      (ni.next = some h ↔ X.previous = some q) := by
    intro i ni q hni hq
    obtain ⟨i0, hi0, hq0⟩ := hsurv i ni hni
    have hq0' := hq0 q hq
    constructor
    · intro hlink
      exact (inv.mc i0 e.item_index q h ni X hq0' hi0 hha hX).1 hlink
    · intro hlink
      exact (inv.mc e.item_index i0 h q X ni hha hX hq0' hi0).2 hlink
  have hNpt : ∀ (i : Nat) (ni : Node T) (q : SlotMapHandle),
      s1.items[i]? = some ni → handleAt s1 i = some q →
      (ni.previous = some h ↔ X.next = some q) := by
    intro i ni q hni hq
    obtain ⟨i0, hi0, hq0⟩ := hsurv i ni hni
    have hq0' := hq0 q hq
    constructor
    · intro hlink
      exact (inv.mc i0 e.item_index q h ni X hq0' hi0 hha hX).2 hlink
    · intro hlink
      exact (inv.mc e.item_index i0 h q X ni hha hX hq0' hi0).1 hlink
  have hm2a : X.previous = none → s2 = s1 := by
    intro hpn2
    rcases hprev with ⟨-, hs2eq⟩ | ⟨p, hp, -⟩
    · exact hs2eq
    · rw [hpn2] at hp
      cases hp
  have hm2b : ∀ pP, X.previous = some pP →
      modifyNode s1 pP (fun m => { m with next := X.next }) = some s2 := by
    intro pP hp2
    rcases hprev with ⟨hpn, -⟩ | ⟨p, hp, hmod⟩
    · rw [hpn] at hp2
      cases hp2
    · rw [hp] at hp2
      cases hp2
      exact hmod
  have hm3a : X.next = none → s' = s2 := by
    intro hnn2
    rcases hnext with ⟨-, hseq⟩ | ⟨nx, hn, -⟩
    · exact hseq
    · rw [hnn2] at hn
      cases hn
  have hm3b : ∀ nN, X.next = some nN →
      modifyNode s2 nN (fun m => { m with previous := X.previous }) =
      some s' := by
    intro nN hn2
    rcases hnext with ⟨hnn, -⟩ | ⟨nx, hn, hmod⟩
    · rw [hnn] at hn2
      cases hn2
    · rw [hn] at hn2
      cases hn2
      exact hmod
  exact LLInv_fixup inv1 hdang hPok hNok hPpt hNpt hm2a hm2b hm3a hm3b

/-- The empty map satisfies the full linked-list invariant. -/
theorem LLInv_new (T : Type) : LLInv (SlotMap.new (Node T)) := by
  refine ⟨⟨rfl, ?_, ?_, ?_, List.nodup_nil⟩, ?_, ?_⟩
  · intro i j hij
    simp [SlotMap.new] at hij
  · intro j hj
    simp [SlotMap.new] at hj
  · intro j hj
    simp [SlotMap.new] at hj
  · intro i n hn
    simp [SlotMap.new] at hn
  · intro i j hi hj ni nj hhi hni hhj hnj
    simp [SlotMap.new] at hni

/-- C9: link mutual consistency is an invariant of every completed
linked-list operation. Starting from any state satisfying the linked-list
invariant (arena well-formedness, sanity of all stored link handles, and
mutual consistency: every live node whose `next` names a live node has
that neighbor's `previous` pointing back at it, and symmetrically), a
completed `insert` without a predecessor, a completed `insert` after a
live predecessor, and a completed `remove` of a live node each reestablish
the invariant — in particular `MutualConsistent` holds again afterwards. -/
theorem C9_mutual_consistency (T : Type) (s : SlotMap (Node T))
    (inv : LLInv s) :
    (∀ (v : T) (hNew : SlotMapHandle) (s' : SlotMap (Node T)),
      LinkedListSlotMap.insert s none v = some (hNew, s') →
      LLInv s' ∧ MutualConsistent s') ∧
    (∀ (p : SlotMapHandle) (v : T) (hNew : SlotMapHandle)
        (s' : SlotMap (Node T)), liveHandle s p →
      LinkedListSlotMap.insert s (some p) v = some (hNew, s') →
      LLInv s' ∧ MutualConsistent s') ∧
    (∀ (h : SlotMapHandle)
        (res : T × Option SlotMapHandle × Option SlotMapHandle)
        (s' : SlotMap (Node T)), liveHandle s h →
      LinkedListSlotMap.remove s h = some (res, s') →
      LLInv s' ∧ MutualConsistent s') :=
  ⟨fun v hNew s' hins =>
    have h1 := LLInv_insert_none inv hins
    ⟨h1, h1.mc⟩,
   fun p v hNew s' hlv hins =>
    have h1 := LLInv_insert_some inv hlv hins
    ⟨h1, h1.mc⟩,
   fun h res s' hlv hrem =>
    have h1 := LLInv_remove inv hlv hrem
    ⟨h1, h1.mc⟩⟩

/-- Witness for C9: the front-insert case on the empty map, then the
remove case on the resulting one-node list, at concrete states. -/
theorem C9_mutual_consistency_witness :
    (LLInv (⟨[⟨1, none, none⟩], [0], [⟨0, 0⟩], []⟩ : SlotMap (Node Nat)) ∧
      MutualConsistent
        (⟨[⟨1, none, none⟩], [0], [⟨0, 0⟩], []⟩ : SlotMap (Node Nat))) ∧
    (LLInv (⟨[], [], [⟨0, 1⟩], [0]⟩ : SlotMap (Node Nat)) ∧
      MutualConsistent (⟨[], [], [⟨0, 1⟩], [0]⟩ : SlotMap (Node Nat))) :=
  have w1 := (C9_mutual_consistency Nat (SlotMap.new (Node Nat))
    (LLInv_new Nat)).1 1 ⟨0, 0⟩ ⟨[⟨1, none, none⟩], [0], [⟨0, 0⟩], []⟩ rfl
  ⟨w1, (C9_mutual_consistency Nat ⟨[⟨1, none, none⟩], [0], [⟨0, 0⟩], []⟩
    w1.1).2.2 ⟨0, 0⟩ (1, none, none) ⟨[], [], [⟨0, 1⟩], [0]⟩
    (List.mem_singleton.mpr rfl) rfl⟩
